import Mathlib

/-!
Verification development for the jamkv key-value store core
(`src/core/index.ts`).  The TypeScript core is shallowly embedded:

* JS runtime values stored by the codec become the inductive `KVValue`
  (JS numbers are modelled by `JSNum`, which separates finite integers
  from `NaN`/`±Infinity`; JSON documents become the inductive `JSON`).
* A database row becomes `Row`; the three value-carrying columns are the
  structure `VRow`, whose fields use `Field` to distinguish a JS object
  property that is absent from one that is present but `null` (decodeValue
  inspects this with the `in` operator).
* The host `JSON.stringify` / `JSON.parse` pair used by the codec is
  modelled by an executable serializer `stringify` and parser `topParse`
  over `JSON`.
* `CoreKV` methods are embedded twice, mirroring the two halves of the
  source: pure statement builders producing the SQL text plus positional
  argument list handed to `execute`, and a denotational layer on a table
  of rows giving the result each operation returns (using the documented
  semantics of the specific SQL statements the source issues, including
  SQLite `LIKE`).  Wall-clock `Date.now()` becomes an explicit `now`
  parameter; `generateVersion()` (external `unsecure` package) becomes an
  explicit `version` parameter.
-/

/-- A JS object property as seen by `decodeValue`: it may be absent from
the object (`"f" in row` is false), present but `null`, or present with a
value. -/
inductive JsField (α : Type) where
  | absent
  | null
  | val (a : α)
deriving DecidableEq, Repr

/-- A JS number as the codec distinguishes them: a finite value (modelled
as an integer, covering the values the claims quantify over) or one of the
non-finite values `NaN`, `Infinity`, `-Infinity`. -/
inductive JSNum where
  | int (n : Int)
  | nan
  | inf
  | negInf
deriving DecidableEq, Repr

/-- JSON documents (the `JSONValue` union of the source restricted to
integer numerics). -/
inductive JSON where
  | null
  | bool (b : Bool)
  | num (n : Int)
  | str (s : String)
  | arr (elems : List JSON)
  | obj (fields : List (String × JSON))

/-- A `Uint8Array` view: backing buffer plus the byte offset and length of
the view, as used by `toArrayBuffer`. -/
structure U8 where
  data : List Nat
  off : Nat
  len : Nat
deriving DecidableEq, Repr

/-- The logical byte contents of a `Uint8Array` view. -/
def U8.bytes (u : U8) : List Nat :=
  (u.data.drop u.off).take u.len

/-- The `KVValue` union of the source: JSON documents (objects, arrays and
the `null` literal reach the `JSON.stringify` branch of `encodeValue`),
strings, numbers, booleans and byte arrays. -/
inductive KVValue where
  | jsonV (j : JSON)
  | str (s : String)
  | num (n : JSNum)
  | bool (b : Bool)
  | bin (u : U8)

/-! ## Decimal rendering and parsing of integers

`encodeValue` stores a number as `String(value)` and `decodeValue` reads
it back with `Number(text)`; for integers these are decimal rendering and
parsing, implemented here executably. -/

/-- The decimal digit character for `d < 10` (`9` for anything larger). -/
def digitChar (d : Nat) : Char :=
  match d with
  | 0 => '0' | 1 => '1' | 2 => '2' | 3 => '3' | 4 => '4'
  | 5 => '5' | 6 => '6' | 7 => '7' | 8 => '8' | _ => '9'

/-- Numeric value of a decimal digit character. -/
def charDigitVal (c : Char) : Nat := c.toNat - 48

/-- Decimal digits of `n`, least significant first. -/
def natDigitsRev (n : Nat) : List Nat :=
  if h : n = 0 then [] else n % 10 :: natDigitsRev (n / 10)
termination_by n
decreasing_by exact Nat.div_lt_self (Nat.pos_of_ne_zero h) (by omega)

/-- Decimal character rendering of a natural number, most significant
digit first (`String(n)` for a nonnegative integer). -/
def natToChars (n : Nat) : List Char :=
  if n = 0 then ['0'] else (natDigitsRev n).reverse.map digitChar

/-- Decimal character rendering of an integer (`String(n)`). -/
def intToChars (n : Int) : List Char :=
  if n < 0 then '-' :: natToChars n.natAbs else natToChars n.toNat

/-- `String(n)` for an integer. -/
def intToStr (n : Int) : String := ⟨intToChars n⟩

/-- Value of a big-endian digit-character list (the accumulator loop a
decimal parser performs). -/
def digitsVal (cs : List Char) : Nat :=
  cs.foldl (fun a c => a * 10 + charDigitVal c) 0

/-- Value of a little-endian digit list. -/
def valRev : List Nat → Nat
  | [] => 0
  | d :: ds => d + 10 * valRev ds

theorem natDigitsRev_zero : natDigitsRev 0 = [] := by
  rw [natDigitsRev.eq_def]
  rfl

theorem natDigitsRev_of_ne_zero {n : Nat} (h : n ≠ 0) :
    natDigitsRev n = n % 10 :: natDigitsRev (n / 10) := by
  rw [natDigitsRev.eq_def, dif_neg h]

theorem valRev_natDigitsRev (n : Nat) : valRev (natDigitsRev n) = n := by
  induction n using Nat.strong_induction_on with
  | _ n ih =>
    by_cases h : n = 0
    · simp [h, natDigitsRev_zero, valRev]
    · have hlt : n / 10 < n := Nat.div_lt_self (Nat.pos_of_ne_zero h) (by omega)
      rw [natDigitsRev_of_ne_zero h]
      simp only [valRev, ih (n / 10) hlt]
      omega

theorem natDigitsRev_lt_ten (n : Nat) : ∀ d ∈ natDigitsRev n, d < 10 := by
  induction n using Nat.strong_induction_on with
  | _ n ih =>
    by_cases h : n = 0
    · simp [h, natDigitsRev_zero]
    · have hlt : n / 10 < n := Nat.div_lt_self (Nat.pos_of_ne_zero h) (by omega)
      rw [natDigitsRev_of_ne_zero h]
      simp only [List.mem_cons]
      rintro d (rfl | hd)
      · exact Nat.mod_lt _ (by omega)
      · exact ih (n / 10) hlt d hd

theorem charDigitVal_digitChar {d : Nat} (h : d < 10) :
    charDigitVal (digitChar d) = d := by
  interval_cases d <;> rfl

theorem isDigit_digitChar {d : Nat} (h : d < 10) :
    (digitChar d).isDigit = true := by
  interval_cases d <;> rfl

theorem foldl_digits_reverse (ds : List Nat) (a : Nat) (h : ∀ d ∈ ds, d < 10) :
    (ds.reverse.map digitChar).foldl (fun a c => a * 10 + charDigitVal c) a =
      a * 10 ^ ds.length + valRev ds := by
  induction ds generalizing a with
  | nil => simp [valRev]
  | cons d ds ih =>
    have hd : d < 10 := h d (List.mem_cons_self d ds)
    have hds : ∀ x ∈ ds, x < 10 := fun x hx => h x (List.mem_cons_of_mem d hx)
    simp only [List.reverse_cons, List.map_append, List.foldl_append,
      List.map_cons, List.map_nil, List.foldl_cons, List.foldl_nil]
    rw [ih a hds, charDigitVal_digitChar hd]
    simp only [valRev, List.length_cons]
    ring

theorem digitsVal_natToChars (n : Nat) : digitsVal (natToChars n) = n := by
  unfold natToChars digitsVal
  by_cases h : n = 0
  · simp [h, charDigitVal]
  · simp only [h, if_false]
    rw [foldl_digits_reverse _ 0 (natDigitsRev_lt_ten n)]
    simp [valRev_natDigitsRev]

theorem natToChars_all_digits (n : Nat) : ∀ c ∈ natToChars n, c.isDigit = true := by
  unfold natToChars
  by_cases h : n = 0
  · simp [h]
  · simp only [h, if_false, List.mem_map, List.mem_reverse]
    rintro c ⟨d, hd, rfl⟩
    exact isDigit_digitChar (natDigitsRev_lt_ten n d hd)

theorem natToChars_ne_nil (n : Nat) : natToChars n ≠ [] := by
  unfold natToChars
  by_cases h : n = 0
  · simp [h]
  · simp only [h, if_false]
    rw [natDigitsRev_of_ne_zero h]
    simp

/-- `String(value)` for a JS number: decimal for finite values, the
literals `NaN`, `Infinity`, `-Infinity` otherwise. -/
def jsStringOfNum : JSNum → String
  | .int n => intToStr n
  | .nan => "NaN"
  | .inf => "Infinity"
  | .negInf => "-Infinity"

/-- `Number(s)` on the strings this store can produce: the empty string is
`0`, the `Infinity` literals parse, an optionally signed digit string
parses as a decimal integer, everything else is `NaN`. -/
def jsParseNumber (s : String) : JSNum :=
  if s = "" then .int 0
  else if s = "Infinity" then .inf
  else if s = "-Infinity" then .negInf
  else
    match s.data with
    | [] => .int 0
    | c :: rest =>
      if c = '-' then
        if rest ≠ [] ∧ rest.all Char.isDigit then .int (-(digitsVal rest : Int)) else .nan
      else
        if (c :: rest).all Char.isDigit then .int (digitsVal (c :: rest)) else .nan

theorem string_mk_ne_empty {cs : List Char} (h : cs ≠ []) : (⟨cs⟩ : String) ≠ "" := by
  intro hc
  exact h (congrArg String.data hc)

theorem all_digits_ne_infinity {cs : List Char}
    (h : ∀ c ∈ cs, c.isDigit = true) : (⟨cs⟩ : String) ≠ "Infinity" := by
  intro hc
  have : cs = "Infinity".data := congrArg String.data hc
  subst this
  have := h 'I' (by decide)
  simp at this

theorem neg_digits_ne_infinity {cs : List Char}
    (h : ∀ c ∈ cs, c.isDigit = true) : (⟨'-' :: cs⟩ : String) ≠ "Infinity" := by
  intro hc
  have hd : '-' :: cs = "Infinity".data := congrArg String.data hc
  simp [show "Infinity".data = ['I','n','f','i','n','i','t','y'] from rfl] at hd

theorem all_digits_ne_neg_infinity {cs : List Char}
    (h : ∀ c ∈ cs, c.isDigit = true) : (⟨cs⟩ : String) ≠ "-Infinity" := by
  intro hc
  have : cs = "-Infinity".data := congrArg String.data hc
  subst this
  have := h '-' (by decide)
  simp at this

theorem neg_digits_ne_neg_infinity {cs : List Char}
    (h : ∀ c ∈ cs, c.isDigit = true) : (⟨'-' :: cs⟩ : String) ≠ "-Infinity" := by
  intro hc
  have hd : '-' :: cs = "-Infinity".data := congrArg String.data hc
  have : cs = ['I','n','f','i','n','i','t','y'] := by
    simpa [show "-Infinity".data = '-' :: ['I','n','f','i','n','i','t','y'] from rfl] using hd
  subst this
  have := h 'I' (by decide)
  simp at this

/-- Round trip of the decimal codec through JS string conversion:
`Number(String(n)) = n` for every integer `n`. -/
theorem jsParseNumber_intToStr (n : Int) : jsParseNumber (intToStr n) = .int n := by
  unfold jsParseNumber intToStr intToChars
  by_cases hneg : n < 0
  · simp only [hneg, if_true]
    have hdig := natToChars_all_digits n.natAbs
    rw [if_neg (string_mk_ne_empty (by simp)),
        if_neg (neg_digits_ne_infinity hdig),
        if_neg (neg_digits_ne_neg_infinity hdig)]
    simp only [if_pos rfl, List.all_eq_true]
    rw [if_pos ⟨natToChars_ne_nil _, hdig⟩, digitsVal_natToChars]
    congr 1
    omega
  · simp only [hneg, if_false]
    have hdig := natToChars_all_digits n.toNat
    rw [if_neg (string_mk_ne_empty (natToChars_ne_nil _)),
        if_neg (all_digits_ne_infinity hdig),
        if_neg (all_digits_ne_neg_infinity hdig)]
    obtain ⟨c, cs, hc⟩ : ∃ c cs, natToChars n.toNat = c :: cs := by
      cases h : natToChars n.toNat with
      | nil => exact absurd h (natToChars_ne_nil _)
      | cons c cs => exact ⟨c, cs, rfl⟩
    rw [hc]
    have hcd : c.isDigit = true := hdig c (by simp [hc])
    have hcne : ¬(c = '-') := by
      intro h
      subst h
      simp [Char.isDigit] at hcd
    dsimp only
    rw [if_neg hcne]
    simp only [List.all_eq_true]
    rw [if_pos (by rw [← hc]; exact hdig), ← hc, digitsVal_natToChars]
    congr 1
    omega

/-! ## JSON serialization (`JSON.stringify`) and parsing (`JSON.parse`)

The codec delegates JSON (de)serialization to the host runtime; here the
pair is implemented executably over `JSON`.  The serializer emits compact
JSON (no whitespace) and escapes the two characters that must be escaped
inside string literals; the parser accepts exactly this grammar. -/

/-- The `{` character (written by code point to keep it out of literals). -/
def lbrace : Char := Char.ofNat 123

/-- The `}` character. -/
def rbrace : Char := Char.ofNat 125

/-- Escape a JSON string body: `"` and `\` get a backslash. -/
def escChars : List Char → List Char
  | [] => []
  | c :: cs => if c = '"' ∨ c = '\\' then '\\' :: c :: escChars cs else c :: escChars cs

mutual

/-- Serialized character stream of a JSON document (`JSON.stringify`). -/
def jsonChars : JSON → List Char
  | .null => "null".data
  | .bool true => "true".data
  | .bool false => "false".data
  | .num n => intToChars n
  | .str s => '"' :: (escChars s.data ++ ['"'])
  | .arr [] => ['[', ']']
  | .arr (x :: xs) => '[' :: (jsonChars x ++ itemsTailChars xs ++ [']'])
  | .obj [] => [lbrace, rbrace]
  | .obj (f :: fs) => lbrace :: (fieldChars f ++ fieldsTailChars fs ++ [rbrace])

/-- Serialization of the remaining array elements, each preceded by `,`. -/
def itemsTailChars : List JSON → List Char
  | [] => []
  | x :: xs => ',' :: (jsonChars x ++ itemsTailChars xs)

/-- Serialization of one object member: quoted key, `:`, value. -/
def fieldChars : String × JSON → List Char
  | (k, v) => '"' :: (escChars k.data ++ ('"' :: ':' :: jsonChars v))

/-- Serialization of remaining object members, each preceded by `,`. -/
def fieldsTailChars : List (String × JSON) → List Char
  | [] => []
  | f :: fs => ',' :: (fieldChars f ++ fieldsTailChars fs)

end

/-- `JSON.stringify` of a document. -/
def stringify (j : JSON) : String := ⟨jsonChars j⟩

/-- Parse a JSON string body after the opening quote, returning the
decoded characters and the input remaining after the closing quote. -/
def parseStrChars : List Char → Option (List Char × List Char)
  | [] => none
  | c :: rest =>
    if c = '"' then some ([], rest)
    else if c = '\\' then
      match rest with
      | [] => none
      | d :: r2 =>
        if d = '"' ∨ d = '\\' then
          (parseStrChars r2).map (fun p => (d :: p.1, p.2))
        else none
    else (parseStrChars rest).map (fun p => (c :: p.1, p.2))
termination_by cs => cs.length
decreasing_by all_goals simp_wf <;> omega

/-- Parse a JSON number (optionally signed decimal integer). -/
def parseNum (cs : List Char) : Option (JSON × List Char) :=
  match cs with
  | [] => none
  | c :: rest =>
    if c = '-' then
      let ds := rest.takeWhile Char.isDigit
      if ds = [] then none
      else some (.num (-(digitsVal ds : Int)), rest.dropWhile Char.isDigit)
    else
      let ds := (c :: rest).takeWhile Char.isDigit
      if ds = [] then none
      else some (.num (digitsVal ds), (c :: rest).dropWhile Char.isDigit)

/-- Consume an expected literal character sequence. -/
def stripChars : List Char → List Char → Option (List Char)
  | [], s => some s
  | c :: cs, s =>
    match s with
    | [] => none
    | d :: ds => if d = c then stripChars cs ds else none

mutual

/-- Fuel-indexed JSON value parser: returns the parsed document and the
remaining input. -/
def parseVal : Nat → List Char → Option (JSON × List Char)
  | 0, _ => none
  | _ + 1, [] => none
  | f + 1, c :: rest =>
    if c = '"' then (parseStrChars rest).map (fun p => (.str ⟨p.1⟩, p.2))
    else if c = '[' then
      match rest with
      | [] => none
      | d :: r2 =>
        if d = ']' then some (.arr [], r2)
        else (parseItems f (d :: r2)).map (fun p => (.arr p.1, p.2))
    else if c = lbrace then
      match rest with
      | [] => none
      | d :: r2 =>
        if d = rbrace then some (.obj [], r2)
        else (parseFields f (d :: r2)).map (fun p => (.obj p.1, p.2))
    else if c = 'n' then (stripChars ['u', 'l', 'l'] rest).map (fun r => (.null, r))
    else if c = 't' then (stripChars ['r', 'u', 'e'] rest).map (fun r => (.bool true, r))
    else if c = 'f' then (stripChars ['a', 'l', 's', 'e'] rest).map (fun r => (.bool false, r))
    else parseNum (c :: rest)

/-- Parse one-or-more comma-separated array elements up to `]`. -/
def parseItems : Nat → List Char → Option (List JSON × List Char)
  | 0, _ => none
  | f + 1, cs =>
    match parseVal f cs with
    | none => none
    | some (x, r) =>
      match r with
      | [] => none
      | c :: r2 =>
        if c = ',' then
          match parseItems f r2 with
          | none => none
          | some (xs, r3) => some (x :: xs, r3)
        else if c = ']' then some ([x], r2)
        else none

/-- Parse one-or-more comma-separated object members up to `}`. -/
def parseFields : Nat → List Char → Option (List (String × JSON) × List Char)
  | 0, _ => none
  | f + 1, cs =>
    match cs with
    | [] => none
    | c :: r0 =>
      if c = '"' then
        match parseStrChars r0 with
        | none => none
        | some (kcs, r1) =>
          match r1 with
          | [] => none
          | c2 :: r2 =>
            if c2 = ':' then
              match parseVal f r2 with
              | none => none
              | some (v, r3) =>
                match r3 with
                | [] => none
                | d :: r4 =>
                  if d = ',' then
                    match parseFields f r4 with
                    | none => none
                    | some (fs, r5) => some ((⟨kcs⟩, v) :: fs, r5)
                  else if d = rbrace then some ([(⟨kcs⟩, v)], r4)
                  else none
            else none
      else none

end

/-- `JSON.parse` of a string: parse one document consuming all input.
The fuel bound exceeds any document depth the input can denote. -/
def topParse (s : String) : Except String JSON :=
  match parseVal (s.data.length + 1) s.data with
  | some (j, []) => .ok j
  | _ => .error "Unexpected token in JSON"

/-! ## Parser round trip

The fuel bound used below is the node-count measure `msize`; the round
trip lemma shows the parser inverts the serializer whenever the fuel
exceeds it, and `msize` is bounded by the serialized length, so
`topParse`'s fuel always suffices. -/

mutual

/-- Fuel measure of a document. -/
def msize : JSON → Nat
  | .null => 1
  | .bool _ => 1
  | .num _ => 1
  | .str _ => 1
  | .arr xs => 1 + msizeL xs
  | .obj fs => 1 + msizeF fs

/-- Fuel measure of an array-element list. -/
def msizeL : List JSON → Nat
  | [] => 0
  | x :: xs => 1 + msize x + msizeL xs

/-- Fuel measure of an object-member list. -/
def msizeF : List (String × JSON) → Nat
  | [] => 0
  | f :: fs => 1 + msize f.2 + msizeF fs

end

theorem msize_pos (j : JSON) : 0 < msize j := by
  cases j <;> simp [msize]

theorem intToChars_head (n : Int) :
    ∃ c cs, intToChars n = c :: cs ∧ (c = '-' ∨ c.isDigit = true) := by
  by_cases h : n < 0
  · exact ⟨'-', natToChars n.natAbs, by unfold intToChars; rw [if_pos h], Or.inl rfl⟩
  · obtain ⟨c, cs, hc⟩ : ∃ c cs, natToChars n.toNat = c :: cs := by
      cases hh : natToChars n.toNat with
      | nil => exact absurd hh (natToChars_ne_nil _)
      | cons c cs => exact ⟨c, cs, rfl⟩
    refine ⟨c, cs, by unfold intToChars; rw [if_neg h, hc], Or.inr ?_⟩
    exact natToChars_all_digits _ c (by rw [hc]; exact List.mem_cons_self c cs)

/-- The serialized form of a document is nonempty and never starts with
`]`. -/
theorem jsonChars_head_ne_rbrack (j : JSON) :
    ∃ c cs, jsonChars j = c :: cs ∧ c ≠ ']' := by
  cases j with
  | null => exact ⟨'n', _, rfl, by decide⟩
  | bool b => cases b
              · exact ⟨'f', _, rfl, by decide⟩
              · exact ⟨'t', _, rfl, by decide⟩
  | num n =>
    obtain ⟨c, cs, hc, hd⟩ := intToChars_head n
    refine ⟨c, cs, by simp [jsonChars, hc], ?_⟩
    rcases hd with rfl | hd
    · decide
    · intro h
      subst h
      simp [Char.isDigit] at hd
  | str s => exact ⟨'"', _, rfl, by decide⟩
  | arr xs => cases xs
              · exact ⟨'[', _, rfl, by decide⟩
              · exact ⟨'[', _, rfl, by decide⟩
  | obj fs => cases fs
              · exact ⟨lbrace, _, rfl, by decide⟩
              · exact ⟨lbrace, _, rfl, by decide⟩

theorem parseStrChars_escChars (s rest : List Char) :
    parseStrChars (escChars s ++ ('"' :: rest)) = some (s, rest) := by
  induction s with
  | nil =>
    rw [escChars, List.nil_append, parseStrChars.eq_def]
    simp
  | cons c cs ih =>
    rw [escChars]
    by_cases hc : c = '"' ∨ c = '\\'
    · rw [if_pos hc, List.cons_append, List.cons_append, parseStrChars.eq_def]
      have h1 : ('\\' : Char) ≠ '"' := by decide
      simp only [h1, if_false, if_pos rfl]
      rw [if_pos hc, ih]
      rfl
    · push_neg at hc
      rw [if_neg (by tauto), List.cons_append, parseStrChars.eq_def]
      simp only [hc.1, hc.2, if_false]
      rw [ih]
      rfl

theorem takeWhile_digits_append {ds rest : List Char}
    (h : ∀ c ∈ ds, c.isDigit = true)
    (hr : match rest with | [] => True | c :: _ => c.isDigit = false) :
    (ds ++ rest).takeWhile Char.isDigit = ds ∧
      (ds ++ rest).dropWhile Char.isDigit = rest := by
  induction ds with
  | nil =>
    simp only [List.nil_append]
    cases rest with
    | nil => simp
    | cons c r => simp [List.takeWhile_cons, List.dropWhile_cons, hr]
  | cons d ds ih =>
    have hd : d.isDigit = true := h d (List.mem_cons_self d ds)
    have hds := ih (fun c hc => h c (List.mem_cons_of_mem d hc))
    simp [List.takeWhile_cons, List.dropWhile_cons, hd, hds.1, hds.2]

/-- Input suffixes the round-trip lemma quantifies over: the serialized
grammar never puts a digit immediately after a complete document. -/
def restOK : List Char → Prop
  | [] => True
  | c :: _ => c.isDigit = false

theorem parseNum_intToChars (n : Int) (rest : List Char) (hr : restOK rest) :
    parseNum (intToChars n ++ rest) = some (.num n, rest) := by
  unfold intToChars
  by_cases hneg : n < 0
  · rw [if_pos hneg, List.cons_append, parseNum, if_pos rfl]
    obtain ⟨htake, hdrop⟩ :=
      takeWhile_digits_append (natToChars_all_digits n.natAbs) (by exact hr)
    rw [htake, hdrop, if_neg (natToChars_ne_nil _), digitsVal_natToChars]
    have : -(n.natAbs : Int) = n := by omega
    rw [this]
  · rw [if_neg hneg]
    obtain ⟨c, cs, hc⟩ : ∃ c cs, natToChars n.toNat = c :: cs := by
      cases hh : natToChars n.toNat with
      | nil => exact absurd hh (natToChars_ne_nil _)
      | cons c cs => exact ⟨c, cs, rfl⟩
    have hcd : c.isDigit = true :=
      natToChars_all_digits _ c (by rw [hc]; exact List.mem_cons_self c cs)
    have hcne : ¬(c = '-') := by
      intro h
      subst h
      simp [Char.isDigit] at hcd
    rw [hc, List.cons_append, parseNum, if_neg hcne, ← List.cons_append, ← hc]
    obtain ⟨htake, hdrop⟩ :=
      takeWhile_digits_append (natToChars_all_digits n.toNat) (by exact hr)
    rw [htake, hdrop, if_neg (natToChars_ne_nil _), digitsVal_natToChars]
    have : (n.toNat : Int) = n := by omega
    rw [this]

theorem stripChars_self (cs s : List Char) : stripChars cs (cs ++ s) = some s := by
  induction cs with
  | nil => rfl
  | cons c cs ih => simp [stripChars, ih]

theorem parseVal_succ_quote (f : Nat) (rest : List Char) :
    parseVal (f + 1) ('"' :: rest) =
      (parseStrChars rest).map (fun p => (.str ⟨p.1⟩, p.2)) := by
  rw [parseVal.eq_def]
  rfl

theorem parseVal_succ_arr (f : Nat) (d : Char) (r2 : List Char) :
    parseVal (f + 1) ('[' :: d :: r2) =
      if d = ']' then some (.arr [], r2)
      else (parseItems f (d :: r2)).map (fun p => (.arr p.1, p.2)) := by
  rw [parseVal.eq_def]
  rfl

theorem parseVal_succ_obj (f : Nat) (d : Char) (r2 : List Char) :
    parseVal (f + 1) (lbrace :: d :: r2) =
      if d = rbrace then some (.obj [], r2)
      else (parseFields f (d :: r2)).map (fun p => (.obj p.1, p.2)) := by
  rw [parseVal.eq_def]
  rfl

theorem parseVal_succ_n (f : Nat) (rest : List Char) :
    parseVal (f + 1) ('n' :: rest) =
      (stripChars ['u', 'l', 'l'] rest).map (fun r => (.null, r)) := by
  rw [parseVal.eq_def]
  rfl

theorem parseVal_succ_t (f : Nat) (rest : List Char) :
    parseVal (f + 1) ('t' :: rest) =
      (stripChars ['r', 'u', 'e'] rest).map (fun r => (.bool true, r)) := by
  rw [parseVal.eq_def]
  rfl

theorem parseVal_succ_f (f : Nat) (rest : List Char) :
    parseVal (f + 1) ('f' :: rest) =
      (stripChars ['a', 'l', 's', 'e'] rest).map (fun r => (.bool false, r)) := by
  rw [parseVal.eq_def]
  rfl

theorem parseVal_succ_other (f : Nat) (c : Char) (rest : List Char)
    (h1 : ¬(c = '"')) (h2 : ¬(c = '[')) (h3 : ¬(c = lbrace))
    (h4 : ¬(c = 'n')) (h5 : ¬(c = 't')) (h6 : ¬(c = 'f')) :
    parseVal (f + 1) (c :: rest) = parseNum (c :: rest) := by
  rw [parseVal.eq_def]
  dsimp only
  rw [if_neg h1, if_neg h2, if_neg h3, if_neg h4, if_neg h5, if_neg h6]

theorem digit_or_minus_ne {c : Char} (h : c = '-' ∨ c.isDigit = true) :
    ¬(c = '"') ∧ ¬(c = '[') ∧ ¬(c = lbrace) ∧ ¬(c = 'n') ∧ ¬(c = 't') ∧ ¬(c = 'f') := by
  rcases h with rfl | hd
  · refine ⟨by decide, by decide, by decide, by decide, by decide, by decide⟩
  · refine ⟨?_, ?_, ?_, ?_, ?_, ?_⟩ <;>
      (intro h; rw [h] at hd; exact absurd hd (by decide))

theorem restOK_itemsTail (xs : List JSON) (rest : List Char) :
    restOK (itemsTailChars xs ++ (']' :: rest)) := by
  cases xs with
  | nil => rw [itemsTailChars]; exact (by decide : (']' : Char).isDigit = false)
  | cons y ys => rw [itemsTailChars]; exact (by decide : (',' : Char).isDigit = false)

theorem restOK_fieldsTail (fs : List (String × JSON)) (rest : List Char) :
    restOK (fieldsTailChars fs ++ (rbrace :: rest)) := by
  cases fs with
  | nil => rw [fieldsTailChars]; exact (by decide : rbrace.isDigit = false)
  | cons g gs => rw [fieldsTailChars]; exact (by decide : (',' : Char).isDigit = false)

/-- Main round trip: with fuel above the `msize` measure, the parser
inverts the serializer for documents, nonempty array-element lists and
nonempty object-member lists, leaving any non-digit-leading suffix. -/
theorem parse_round (f : Nat) :
    (∀ j rest, msize j < f → restOK rest →
        parseVal f (jsonChars j ++ rest) = some (j, rest)) ∧
    (∀ x xs rest, msizeL (x :: xs) < f → restOK rest →
        parseItems f (jsonChars x ++ (itemsTailChars xs ++ (']' :: rest))) =
          some (x :: xs, rest)) ∧
    (∀ k v fs rest, msizeF ((k, v) :: fs) < f → restOK rest →
        parseFields f (fieldChars (k, v) ++ (fieldsTailChars fs ++ (rbrace :: rest))) =
          some ((k, v) :: fs, rest)) := by
  induction f using Nat.strong_induction_on with
  | _ f ih =>
    cases f with
    | zero => refine ⟨?_, ?_, ?_⟩ <;> (intros _ _ h; omega) <;> intros
    | succ f =>
      obtain ⟨ihV, ihI, ihF⟩ := ih f (by omega)
      refine ⟨?_, ?_, ?_⟩
      · intro j rest hs hr
        cases j with
        | null =>
          have he : jsonChars .null ++ rest = 'n' :: (['u', 'l', 'l'] ++ rest) := rfl
          rw [he, parseVal_succ_n, stripChars_self]
          rfl
        | bool b =>
          cases b with
          | true =>
            have he : jsonChars (.bool true) ++ rest = 't' :: (['r', 'u', 'e'] ++ rest) := rfl
            rw [he, parseVal_succ_t, stripChars_self]
            rfl
          | false =>
            have he : jsonChars (.bool false) ++ rest =
                'f' :: (['a', 'l', 's', 'e'] ++ rest) := rfl
            rw [he, parseVal_succ_f, stripChars_self]
            rfl
        | num n =>
          obtain ⟨c, cs, hc, hd⟩ := intToChars_head n
          obtain ⟨h1, h2, h3, h4, h5, h6⟩ := digit_or_minus_ne hd
          have he : jsonChars (.num n) = intToChars n := rfl
          rw [he, hc, List.cons_append, parseVal_succ_other f c _ h1 h2 h3 h4 h5 h6,
            ← List.cons_append, ← hc, ← he]
          rw [he]
          exact parseNum_intToChars n rest hr
        | str s =>
          have he : jsonChars (.str s) ++ rest = '"' :: (escChars s.data ++ ('"' :: rest)) := by
            rw [jsonChars, List.cons_append, List.append_assoc]
            rfl
          rw [he, parseVal_succ_quote, parseStrChars_escChars]
          rfl
        | arr xs =>
          cases xs with
          | nil =>
            have he : jsonChars (.arr []) ++ rest = '[' :: ']' :: rest := rfl
            rw [he, parseVal_succ_arr, if_pos rfl]
          | cons x xs =>
            obtain ⟨c0, cs0, hc0, hne0⟩ := jsonChars_head_ne_rbrack x
            have he : jsonChars (.arr (x :: xs)) ++ rest =
                '[' :: (jsonChars x ++ (itemsTailChars xs ++ (']' :: rest))) := by
              rw [jsonChars, List.cons_append]
              simp [List.append_assoc]
            rw [he, hc0, List.cons_append, parseVal_succ_arr, if_neg hne0,
              ← List.cons_append, ← hc0]
            rw [ihI x xs rest (by simp only [msize, msizeL] at hs ⊢; omega) hr]
            rfl
        | obj fs =>
          cases fs with
          | nil =>
            have he : jsonChars (.obj []) ++ rest = lbrace :: rbrace :: rest := rfl
            rw [he, parseVal_succ_obj, if_pos rfl]
          | cons g fs =>
            obtain ⟨k, v⟩ := g
            have he : jsonChars (.obj ((k, v) :: fs)) ++ rest =
                lbrace :: ('"' :: ((escChars k.data ++ ('"' :: ':' :: jsonChars v)) ++
                  (fieldsTailChars fs ++ (rbrace :: rest)))) := by
              rw [jsonChars, List.cons_append]
              simp [fieldChars, List.append_assoc]
            rw [he, parseVal_succ_obj, if_neg (by decide)]
            have he2 : ('"' :: ((escChars k.data ++ ('"' :: ':' :: jsonChars v)) ++
                  (fieldsTailChars fs ++ (rbrace :: rest)))) =
                fieldChars (k, v) ++ (fieldsTailChars fs ++ (rbrace :: rest)) := by
              simp [fieldChars, List.append_assoc]
            rw [he2, ihF k v fs rest (by simp only [msize, msizeF] at hs ⊢; omega) hr]
            rfl
      · intro x xs rest hs hr
        rw [parseItems.eq_def]
        dsimp only
        rw [ihV x (itemsTailChars xs ++ (']' :: rest))
          (by simp only [msizeL] at hs; omega) (restOK_itemsTail xs rest)]
        cases xs with
        | nil =>
          have he : itemsTailChars ([] : List JSON) ++ (']' :: rest) = ']' :: rest := by
            rw [itemsTailChars, List.nil_append]
          rw [he]
          dsimp only
          rw [if_neg (by decide), if_pos rfl]
        | cons y ys =>
          have he : itemsTailChars (y :: ys) ++ (']' :: rest) =
              ',' :: (jsonChars y ++ (itemsTailChars ys ++ (']' :: rest))) := by
            rw [itemsTailChars]
            simp [List.append_assoc]
          rw [he]
          dsimp only
          rw [if_pos rfl, ihI y ys rest (by simp only [msizeL] at hs ⊢; omega) hr]
      · intro k v fs rest hs hr
        have he : fieldChars (k, v) ++ (fieldsTailChars fs ++ (rbrace :: rest)) =
            '"' :: (escChars k.data ++ ('"' :: (':' :: (jsonChars v ++
              (fieldsTailChars fs ++ (rbrace :: rest)))))) := by
          simp [fieldChars, List.append_assoc]
        rw [he, parseFields.eq_def]
        dsimp only
        rw [if_pos rfl, parseStrChars_escChars]
        dsimp only
        rw [if_pos rfl,
          ihV v (fieldsTailChars fs ++ (rbrace :: rest))
            (by simp only [msizeF] at hs; omega) (restOK_fieldsTail fs rest)]
        cases fs with
        | nil =>
          have he2 : fieldsTailChars ([] : List (String × JSON)) ++ (rbrace :: rest) =
              rbrace :: rest := by
            rw [fieldsTailChars, List.nil_append]
          rw [he2]
          dsimp only
          rw [if_neg (by decide), if_pos rfl]
        | cons g gs =>
          obtain ⟨k2, v2⟩ := g
          have he2 : fieldsTailChars ((k2, v2) :: gs) ++ (rbrace :: rest) =
              ',' :: (fieldChars (k2, v2) ++ (fieldsTailChars gs ++ (rbrace :: rest))) := by
            rw [fieldsTailChars]
            simp [List.append_assoc]
          rw [he2]
          dsimp only
          rw [if_pos rfl, ihF k2 v2 gs rest (by simp only [msizeF] at hs ⊢; omega) hr]

mutual

theorem msize_le_len : (j : JSON) → msize j ≤ (jsonChars j).length
  | .null => by simp [msize, jsonChars]
  | .bool true => by simp [msize, jsonChars]
  | .bool false => by simp [msize, jsonChars]
  | .num n => by
    obtain ⟨c, cs, hc, _⟩ := intToChars_head n
    simp [msize, jsonChars, hc]
  | .str s => by simp [msize, jsonChars]
  | .arr [] => by simp [msize, msizeL, jsonChars]
  | .arr (x :: xs) => by
    have h1 := msize_le_len x
    have h2 := msizeL_le_len xs
    simp only [msize, msizeL, jsonChars, List.length_cons, List.length_append]
    omega
  | .obj [] => by simp [msize, msizeF, jsonChars]
  | .obj (g :: fs) => by
    have h1 := msize_le_len g.2
    have h2 := msizeF_le_len fs
    obtain ⟨k, v⟩ := g
    simp only [msize, msizeF, jsonChars, fieldChars, List.length_cons,
      List.length_append] at h1 h2 ⊢
    omega

theorem msizeL_le_len : (xs : List JSON) → msizeL xs ≤ (itemsTailChars xs).length
  | [] => by simp [msizeL, itemsTailChars]
  | x :: xs => by
    have h1 := msize_le_len x
    have h2 := msizeL_le_len xs
    simp only [msizeL, itemsTailChars, List.length_cons, List.length_append]
    omega

theorem msizeF_le_len : (fs : List (String × JSON)) → msizeF fs ≤ (fieldsTailChars fs).length
  | [] => by simp [msizeF, fieldsTailChars]
  | (k, v) :: fs => by
    have h1 := msize_le_len v
    have h2 := msizeF_le_len fs
    simp only [msizeF, fieldsTailChars, fieldChars, List.length_cons,
      List.length_append]
    omega

end

/-- `JSON.parse ∘ JSON.stringify` is the identity on documents. -/
theorem topParse_stringify (j : JSON) : topParse (stringify j) = .ok j := by
  unfold topParse stringify
  have hd : (⟨jsonChars j⟩ : String).data = jsonChars j := rfl
  rw [hd]
  have hfuel : msize j < (jsonChars j).length + 1 :=
    Nat.lt_succ_of_le (msize_le_len j)
  have := (parse_round ((jsonChars j).length + 1)).1 j [] hfuel trivial
  rw [List.append_nil] at this
  rw [this]

/-! ## Value codec (`encodeValue` / `decodeValue`, src/core/index.ts) -/

/-- Result of `encodeValue`: `blob`/`text` become the SQL arguments
(`none` is the SQL `NULL`), `type` the `value_type` tag. -/
structure Encoded where
  blob : Option (List Nat)
  text : Option String
  type : String
deriving DecidableEq, Repr

/-- `toArrayBuffer` (src/core/index.ts): reuses the whole buffer when the
view covers it exactly, otherwise copies the viewed slice. -/
def toArrayBuffer (arr : U8) : List Nat :=
  if arr.len = arr.data.length ∧ arr.off = 0 then arr.data
  else (arr.data.drop arr.off).take (arr.off + arr.len - arr.off)

/-- `encodeValue` (src/core/index.ts).  Dispatches on the runtime type of
the value exactly as the source's `instanceof`/`typeof` chain does; note
there is no finiteness check on numbers. -/
def encodeValue : KVValue → Encoded
  | .bin u => { blob := some (toArrayBuffer u), text := none, type := "binary" }
  | .str s => { blob := none, text := some s, type := "string" }
  | .num n => { blob := none, text := some (jsStringOfNum n), type := "number" }
  | .bool b => { blob := none, text := some (if b then "true" else "false"), type := "boolean" }
  | .jsonV j => { blob := none, text := some (stringify j), type := "json" }

/-- The three value-carrying columns of a row as `decodeValue` sees them.
A row fetched from the database always has all three present (`null` for
SQL `NULL`); `absent` models a JS object missing the property, which the
source's `"field" in row` guard distinguishes. -/
structure VRow where
  value_type : JsField String
  value_blob : JsField (List Nat)
  value_text : JsField String
deriving DecidableEq, Repr

/-- `new Uint8Array(blob)`: a `null`/`undefined` argument yields an empty
array. -/
def u8OfBlobField : JsField (List Nat) → List Nat
  | .val b => b
  | .null => []
  | .absent => []

/-- `Number(row.value_text)`: `Number(null) = 0`, `Number(undefined)` is
`NaN`. -/
def jsNumberOfField : JsField String → JSNum
  | .val s => jsParseNumber s
  | .null => .int 0
  | .absent => .nan

/-- `JSON.parse(row.value_text)`: the argument is first converted to a
string, so `null` parses as the document `null` and `undefined` is a parse
error. -/
def jsonParseField : JsField String → Except String JSON
  | .val s => topParse s
  | .null => topParse "null"
  | .absent => topParse "undefined"

/-- The final `return row.value_text` fallback of `decodeValue`: a string
comes back as a string, SQL `NULL` comes back as the JS `null` value
(which is the JSON `null` document in the `KVValue` union), an absent
property comes back as `undefined` (modelled as `none`). -/
def fallbackText : JsField String → Option KVValue
  | .val s => some (.str s)
  | .null => some (.jsonV .null)
  | .absent => none

/-- `decodeValue` (src/core/index.ts).  Throws only when all three of
`value_type`/`value_blob`/`value_text` are absent; otherwise dispatches on
the `value_type` tag, falling through to the raw text for any tag other
than the four recognized ones.  The `Except` error models the thrown
exception; the `Option` in the success value models `undefined`. -/
def decodeValue (row : VRow) : Except String (Option KVValue) :=
  if row.value_type = .absent ∧ row.value_blob = .absent ∧ row.value_text = .absent then
    .error "Invalid row format for decoding value."
  else if row.value_type = .val "binary" then
    .ok (some (.bin ⟨u8OfBlobField row.value_blob, 0, (u8OfBlobField row.value_blob).length⟩))
  else if row.value_type = .val "number" then
    .ok (some (.num (jsNumberOfField row.value_text)))
  else if row.value_type = .val "boolean" then
    .ok (some (.bool (row.value_text = .val "true")))
  else if row.value_type = .val "json" then
    match jsonParseField row.value_text with
    | .ok j => .ok (some (.jsonV j))
    | .error e => .error e
  else
    .ok (fallbackText row.value_text)

/-- The row stored for an encoded value: `set` binds `blob`/`text`/`type`
as the three value arguments, `null` for absent options. -/
def vrowOf (e : Encoded) : VRow :=
  { value_type := .val e.type
    value_blob := (match e.blob with | some b => .val b | none => .null)
    value_text := (match e.text with | some t => .val t | none => .null) }

/-- The value kinds the round-trip claim quantifies over: all strings,
booleans and JSON documents, finite numbers, and byte views that lie
within their backing buffer (as every JS `Uint8Array` does). -/
def wfKV : KVValue → Bool
  | .num (.int _) => true
  | .num _ => false
  | .bin u => decide (u.off + u.len ≤ u.data.length)
  | _ => true

/-- The value `get` hands back after a round trip: byte views are
re-materialized over a fresh buffer with offset `0`; everything else is
returned as stored. -/
def canon : KVValue → KVValue
  | .bin u => .bin { data := u.bytes, off := 0, len := u.bytes.length }
  | v => v

/-- Structural equality in the sense of the spec: byte views compare by
contents, everything else by value. -/
def kvContentsEq : KVValue → KVValue → Prop
  | .bin u, .bin w => u.bytes = w.bytes
  | v, w => v = w

theorem toArrayBuffer_bytes {u : U8} (h : u.off + u.len ≤ u.data.length) :
    toArrayBuffer u = u.bytes := by
  unfold toArrayBuffer U8.bytes
  by_cases hc : u.len = u.data.length ∧ u.off = 0
  · rw [if_pos hc]
    rw [hc.2, List.drop_zero, hc.1, List.take_length]
  · rw [if_neg hc]
    congr 1
    omega

/-- Decode inverts encode (helper used by several claims): for every
well-formed value the decoded result is `canon v`. -/
theorem decode_encode {v : KVValue} (h : wfKV v = true) :
    decodeValue (vrowOf (encodeValue v)) = .ok (some (canon v)) := by
  cases v with
  | jsonV j =>
    unfold encodeValue vrowOf decodeValue
    rw [if_neg (by simp), if_neg (by simp), if_neg (by simp), if_neg (by simp),
      if_pos rfl]
    dsimp only [jsonParseField]
    rw [topParse_stringify]
    rfl
  | str s =>
    unfold encodeValue vrowOf decodeValue
    rw [if_neg (by simp), if_neg (by simp), if_neg (by simp), if_neg (by simp),
      if_neg (by simp)]
    rfl
  | num n =>
    cases n with
    | int m =>
      unfold encodeValue vrowOf decodeValue
      rw [if_neg (by simp), if_neg (by simp), if_pos rfl]
      dsimp only [jsNumberOfField, jsStringOfNum]
      rw [jsParseNumber_intToStr]
      rfl
    | nan => simp [wfKV] at h
    | inf => simp [wfKV] at h
    | negInf => simp [wfKV] at h
  | bool b =>
    cases b with
    | true => rfl
    | false => rfl
  | bin u =>
    have hb : u.off + u.len ≤ u.data.length := by
      simpa [wfKV] using h
    unfold encodeValue vrowOf decodeValue
    rw [if_neg (by simp), if_pos rfl]
    dsimp only [u8OfBlobField, canon]
    rw [toArrayBuffer_bytes hb]

theorem canon_contentsEq (v : KVValue) : kvContentsEq (canon v) v := by
  cases v with
  | bin u =>
    show U8.bytes _ = u.bytes
    unfold U8.bytes
    simp
  | jsonV j => rfl
  | str s => rfl
  | num n => rfl
  | bool b => rfl

/-! ## CoreKV: denotational layer

The store's table is a list of rows with unique keys (enforced by the
`PRIMARY KEY`); each operation is a function of the table, its inputs and
the `now` sampled at call entry.  The semantics of each fixed SQL
statement the source issues (single-key `SELECT`, `IN`-list `SELECT`,
upsert, `DELETE`, and `list`'s filtered ordered `SELECT`) is inlined,
including SQLite `LIKE` matching for the prefix clause. -/

/-- A stored row (the `created_at` column is informational only and not
used by any operation, so it is not modelled). -/
structure Row where
  key : String
  vrow : VRow
  version : String
  expires_at : Option Int
deriving DecidableEq, Repr

/-- The kv table. -/
abbrev Table := List Row

/-- An entry returned to callers; `value` is `none` only for the
degenerate `undefined` decode result. -/
structure Entry where
  key : String
  value : Option KVValue
  version : String

/-- JS truthiness test `row.expires_at && row.expires_at < now`: `null`
and `0` are falsy. -/
def expiredTruthy (e : Option Int) (now : Int) : Bool :=
  match e with
  | none => false
  | some x => !(x == 0) && decide (x < now)

/-- The `expires_at IS NULL OR expires_at > ?` filter of `list` and
`cleanupExpired`'s complement. -/
def notExpiredSql (e : Option Int) (now : Int) : Bool :=
  match e with
  | none => true
  | some x => decide (x > now)

/-- ASCII-folding character comparison used by SQLite `LIKE`. -/
def likeCharEq (p c : Char) : Bool :=
  (if 'A' ≤ p ∧ p ≤ 'Z' then Char.ofNat (p.toNat + 32) else p) =
    (if 'A' ≤ c ∧ c ≤ 'Z' then Char.ofNat (c.toNat + 32) else c)

/-- SQLite `LIKE` pattern matching (no ESCAPE clause): `%` matches any
sequence, `_` any single character, letters case-insensitively (ASCII). -/
def likeMatch : List Char → List Char → Bool
  | [], [] => true
  | [], _ :: _ => false
  | p :: ps, s =>
    if p = '%' then
      likeMatch ps s ||
        (match s with
         | [] => false
         | _ :: cs => likeMatch ('%' :: ps) cs)
    else
      match s with
      | [] => false
      | c :: cs =>
        if p = '_' then likeMatch ps cs
        else likeCharEq p c && likeMatch ps cs
termination_by p s => (s.length, p.length)
decreasing_by all_goals simp_wf <;> omega

namespace CoreKV

/-- `get` (src/core/index.ts): single-row lookup, lazy expiration check
with the truthiness guard, then decode.  The fire-and-forget delete has no
effect on the returned value and is not part of the result. -/
def get (t : Table) (key : String) (now : Int) : Except String (Option Entry) :=
  match (t.filter (fun r => r.key == key)).head? with
  | none => .ok none
  | some row =>
    if expiredTruthy row.expires_at now then .ok none
    else
      match decodeValue row.vrow with
      | .error e => .error e
      | .ok v => .ok (some { key := row.key, value := v, version := row.version })

/-- `expiresAt` computation of `set`:
`options?.expireIn ? Date.now() + options.expireIn : null` — note the
truthiness test, under which `expireIn = 0` yields no expiry. -/
def expiresAtOf (expireIn : Option Int) (now : Int) : Option Int :=
  match expireIn with
  | some d => if d == 0 then none else some (now + d)
  | none => none

/-- The row a `set` call stores. -/
def mkRow (key : String) (value : KVValue) (version : String)
    (expireIn : Option Int) (now : Int) : Row :=
  { key := key
    vrow := vrowOf (encodeValue value)
    version := version
    expires_at := expiresAtOf expireIn now }

/-- `set` (src/core/index.ts): upsert keyed on `key`, overwriting every
mutable column of an existing row (`ON CONFLICT(key) DO UPDATE SET ...`
with all five columns from `excluded`). -/
def set (t : Table) (key : String) (value : KVValue) (version : String)
    (expireIn : Option Int) (now : Int) : Table :=
  let newRow := mkRow key value version expireIn now
  if t.any (fun r => r.key == key) then
    t.map (fun r => if r.key == key then newRow else r)
  else
    t ++ [newRow]

/-- `del` (src/core/index.ts). -/
def del (t : Table) (key : String) : Table :=
  t.filter (fun r => !(r.key == key))

/-- `cleanupExpired` (src/core/index.ts):
`DELETE WHERE expires_at IS NOT NULL AND expires_at < now`. -/
def cleanupExpired (t : Table) (now : Int) : Table :=
  t.filter (fun r =>
    match r.expires_at with
    | none => true
    | some x => !(decide (x < now)))

/-- The `Map` built by `getMany` from the fetched rows, skipping expired
ones (later rows overwrite, as `Map.set` does). -/
def buildMap (rows : List Row) (now : Int) : String → Option Row :=
  rows.foldl
    (fun m row =>
      if expiredTruthy row.expires_at now then m
      else fun k => if k == row.key then some row else m k)
    (fun _ => none)

/-- The final `keys.map(...)` of `getMany`: look each input key up in the
map and decode; a decode exception aborts the whole call. -/
def mapDecode (m : String → Option Row) : List String → Except String (List (Option Entry))
  | [] => .ok []
  | k :: ks =>
    match m k with
    | none =>
      match mapDecode m ks with
      | .error e => .error e
      | .ok rest => .ok (none :: rest)
    | some row =>
      match decodeValue row.vrow with
      | .error e => .error e
      | .ok v =>
        match mapDecode m ks with
        | .error e => .error e
        | .ok rest => .ok (some { key := row.key, value := v, version := row.version } :: rest)

/-- `getMany` (src/core/index.ts): empty input short-circuits (no query);
otherwise one `IN`-list query fetches the matching rows, expired rows are
skipped while building the map, and the result has one slot per input
key in order. -/
def getMany (t : Table) (keys : List String) (now : Int) :
    Except String (List (Option Entry)) :=
  if keys.isEmpty then .ok []
  else mapDecode (buildMap (t.filter (fun r => keys.contains r.key)) now) keys

/-- The options of a `list` call without a `where` filter (the claims
about `list`'s result concern these; a `where` filter's evaluation happens
inside the SQL engine's `json_extract` and is outside this layer). -/
structure SListOptions where
  pfx : Option String := none
  limit : Option Int := none
  reverse : Option Bool := none

/-- One row of `list`'s `WHERE` clause: the expiry filter plus, when the
`prefix` option is truthy, `key LIKE ?` with the pattern `prefix + "%"`
(unescaped, so `%`/`_` in the prefix are wildcards). -/
def listRowPasses (o : SListOptions) (now : Int) (r : Row) : Bool :=
  notExpiredSql r.expires_at now &&
    (match o.pfx with
     | some p => if p == "" then true else likeMatch (p ++ "%").data r.key.data
     | none => true)

/-- Key comparison of `ORDER BY key` (SQLite's binary collation on UTF-8
text agrees with code-point order). -/
def keyLe (a b : Row) : Prop := a.key.data ≤ b.key.data

instance : DecidableRel keyLe := fun a b => by
  unfold keyLe
  infer_instance

/-- `ORDER BY key DESC`. -/
def keyGe (a b : Row) : Prop := b.key.data ≤ a.key.data

instance : DecidableRel keyGe := fun a b => by
  unfold keyGe
  infer_instance

/-- The `rs.rows.map(...)` decode loop of `list`. -/
def rowsToEntries : List Row → Except String (List Entry)
  | [] => .ok []
  | r :: rs =>
    match decodeValue r.vrow with
    | .error e => .error e
    | .ok v =>
      match rowsToEntries rs with
      | .error e => .error e
      | .ok rest => .ok ({ key := r.key, value := v, version := r.version } :: rest)

/-- `list` (src/core/index.ts) without a `where` filter: filter expired
rows and non-matching prefixes, order by key (`reverse` flips), apply
`LIMIT` when the option is truthy (SQLite treats a negative limit as
unlimited), decode each row. -/
def list (t : Table) (o : SListOptions) (now : Int) : Except String (List Entry) :=
  let rows := t.filter (listRowPasses o now)
  let sorted := if o.reverse == some true
    then rows.insertionSort keyGe
    else rows.insertionSort keyLe
  let limited :=
    match o.limit with
    | some l => if l ≤ 0 then sorted else sorted.take l.toNat
    | none => sorted
  rowsToEntries limited

end CoreKV

/-- First row stored under a key (what the single-key `SELECT` returns). -/
def findRow (t : Table) (key : String) : Option Row :=
  (t.filter (fun r => r.key == key)).head?

/-! ## CoreKV: statement layer

The SQL text and positional argument list each operation hands to the
abstract `execute` capability (`tableName` is the default `"kv_store"`). -/

/-- A positional SQL argument (`InValue`). -/
inductive SqlArg where
  | s (v : String)
  | i (v : Int)
  | blob (v : List Nat)
  | null
deriving DecidableEq, Repr

/-- One parameterized statement as passed to `execute`. -/
structure Stmt where
  sql : String
  args : List SqlArg
deriving DecidableEq, Repr

/-- The comparison value of a `WhereCondition` (`string | number`). -/
inductive CondValue where
  | s (v : String)
  | i (v : Int)
deriving DecidableEq, Repr

/-- A filter leaf `{field, operator, value}`.  The operator is kept as a
raw string: the TS type says `WhereOperator`, but the code revalidates it
at runtime against the allow-list, so the embedding quantifies over all
strings. -/
structure WhereCondition where
  field : String
  operator : String
  value : CondValue
deriving DecidableEq, Repr

/-- The combinator tags of `LogicResult` (`AND`/`OR`/`NOT`). -/
inductive LogicOp where
  | AND
  | OR
  | NOT
deriving DecidableEq, Repr

/-- A `WhereCondition | LogicResult` tree as built by the `where`
callback's combinators. -/
inductive LogicTree where
  | cond (c : WhereCondition)
  | logic (op : LogicOp) (conditions : List LogicTree)

/-- SQL text of a combinator tag. -/
def logicOpStr : LogicOp → String
  | .AND => "AND"
  | .OR => "OR"
  | .NOT => "NOT"

/-- The operator allow-list `safeOps` of `buildWhereSql` and `list`. -/
def safeOps : List String := ["=", ">", "<", "LIKE", "!="]

/-- The allow-list substitution: an operator outside `safeOps` is silently
replaced by `=`. -/
def coerceOp (op : String) : String :=
  if safeOps.contains op then op else "="

/-- A compiled fragment: SQL text plus its argument list. -/
structure Frag where
  sql : String
  args : List SqlArg
deriving DecidableEq, Repr

/-- The argument a condition's comparison value contributes. -/
def argOfCondValue : CondValue → SqlArg
  | .s v => .s v
  | .i v => .i v

mutual

/-- `buildWhereSql` (src/core/index.ts): leaves compile to a parameterized
`json_extract` comparison with the allow-listed operator substituted into
the text; `NOT` requires a first child (else it throws); `AND`/`OR`
parenthesize the children joined by the combinator keyword, concatenating
argument lists left to right. -/
def buildWhereSql : LogicTree → Except String Frag
  | .cond c =>
    .ok { sql := "json_extract(value_text, ?) " ++ coerceOp c.operator ++ " ?"
          args := [.s ("$." ++ c.field), argOfCondValue c.value] }
  | .logic .NOT conds =>
    match conds with
    | [] => .error "NOT operator requires a condition"
    | first :: _ =>
      match buildWhereSql first with
      | .error e => .error e
      | .ok inner => .ok { sql := "NOT (" ++ inner.sql ++ ")", args := inner.args }
  | .logic .AND conds =>
    match buildFragList conds with
    | .error e => .error e
    | .ok frags =>
      .ok { sql := "(" ++ String.intercalate " AND " (frags.map Frag.sql) ++ ")"
            args := (frags.map Frag.args).flatten }
  | .logic .OR conds =>
    match buildFragList conds with
    | .error e => .error e
    | .ok frags =>
      .ok { sql := "(" ++ String.intercalate " OR " (frags.map Frag.sql) ++ ")"
            args := (frags.map Frag.args).flatten }

/-- The `for (const cond of condition.conditions)` loop of
`buildWhereSql`. -/
def buildFragList : List LogicTree → Except String (List Frag)
  | [] => .ok []
  | c :: cs =>
    match buildWhereSql c with
    | .error e => .error e
    | .ok f =>
      match buildFragList cs with
      | .error e => .error e
      | .ok fs => .ok (f :: fs)

end

/-- The `where` option: a plain condition object or the callback form,
modelled by the tree the callback returns. -/
inductive WhereForm where
  | simple (c : WhereCondition)
  | callback (tree : LogicTree)

/-- The full `ListOptions` record (`cursor` is declared but never read by
`list`). -/
structure ListOptions where
  pfx : Option String := none
  limit : Option Int := none
  cursor : Option String := none
  whereOpt : Option WhereForm := none
  reverse : Option Bool := none

namespace CoreKV

/-- `get`'s statement. -/
def getStmt (key : String) : Stmt :=
  { sql := "SELECT * FROM kv_store WHERE key = ?", args := [.s key] }

/-- `getMany`'s statement; `none` when the empty input short-circuits
before any query. -/
def getManyStmt (keys : List String) : Option Stmt :=
  if keys.isEmpty then none
  else some
    { sql := "SELECT * FROM kv_store WHERE key IN (" ++
        String.intercalate "," (keys.map (fun _ => "?")) ++ ")"
      args := keys.map SqlArg.s }

/-- The argument an optional blob/text contributes. -/
def argOfOpt (f : Option α) (mk : α → SqlArg) : SqlArg :=
  match f with
  | some v => mk v
  | none => .null

/-- `set`'s statement: fixed upsert text, all data in the arguments. -/
def setStmt (key : String) (value : KVValue) (version : String)
    (expireIn : Option Int) (now : Int) : Stmt :=
  let e := encodeValue value
  { sql := "INSERT INTO kv_store (key, value_blob, value_text, value_type, version, expires_at)\nVALUES (?, ?, ?, ?, ?, ?)\nON CONFLICT(key) DO UPDATE SET\n  value_blob = excluded.value_blob,\n  value_text = excluded.value_text,\n  value_type = excluded.value_type,\n  version = excluded.version,\n  expires_at = excluded.expires_at\n"
    args := [.s key, argOfOpt e.blob SqlArg.blob, argOfOpt e.text SqlArg.s,
      .s e.type, .s version, argOfOpt (expiresAtOf expireIn now) SqlArg.i] }

/-- `del`'s statement. -/
def delStmt (key : String) : Stmt :=
  { sql := "DELETE FROM kv_store WHERE key = ?", args := [.s key] }

/-- `cleanupExpired`'s statement. -/
def cleanupStmt (now : Int) : Stmt :=
  { sql := "DELETE FROM kv_store WHERE expires_at IS NOT NULL AND expires_at < ?"
    args := [.i now] }

/-- `list`'s statement: assembled left to right exactly as the source
appends to `sql` and pushes to `args`.  Compilation fails only when the
`where` callback's tree makes `buildWhereSql` throw. -/
def listStmt (o : ListOptions) (now : Int) : Except String Stmt :=
  let sql1 := "SELECT * FROM kv_store WHERE 1=1" ++ " AND (expires_at IS NULL OR expires_at > ?)"
  let args1 : List SqlArg := [.i now]
  let step2 : String × List SqlArg :=
    match o.pfx with
    | some p =>
      if p == "" then (sql1, args1)
      else (sql1 ++ " AND key LIKE ?", args1 ++ [.s (p ++ "%")])
    | none => (sql1, args1)
  let step3 : Except String (String × List SqlArg) :=
    match o.whereOpt with
    | none => .ok step2
    | some (.callback tree) =>
      match buildWhereSql tree with
      | .error e => .error e
      | .ok frag =>
        .ok (step2.1 ++ " AND value_type = 'json' AND (" ++ frag.sql ++ ")",
          step2.2 ++ frag.args)
    | some (.simple c) =>
      .ok (step2.1 ++ " AND value_type = 'json' AND json_extract(value_text, ?) " ++
          coerceOp c.operator ++ " ?",
        step2.2 ++ [.s ("$." ++ c.field), argOfCondValue c.value])
  match step3 with
  | .error e => .error e
  | .ok (sql3, args3) =>
    let sql4 := sql3 ++ " ORDER BY key " ++ (if o.reverse == some true then "DESC" else "ASC")
    match o.limit with
    | some l =>
      if l == 0 then .ok { sql := sql4, args := args3 }
      else .ok { sql := sql4 ++ " LIMIT ?", args := args3 ++ [.i l] }
    | none => .ok { sql := sql4, args := args3 }

end CoreKV

/-! ## Query shapes

The "shape" of a call is everything the generated SQL text can depend on:
truthiness of the options, the reverse flag, the number of keys, the tree
structure of a filter and its allow-listed effective operators — but none
of the caller-supplied payload (keys, prefix characters, field names,
comparison values, stored values). -/

/-- Shape of a filter tree: structure, combinator tags and effective
(allow-listed) operators only. -/
inductive TreeShape where
  | leaf (effOp : String)
  | node (op : LogicOp) (children : List TreeShape)

mutual

/-- Shape of a filter tree. -/
def treeShapeOf : LogicTree → TreeShape
  | .cond c => .leaf (coerceOp c.operator)
  | .logic op cs => .node op (treeShapeListOf cs)

/-- Shapes of a child list. -/
def treeShapeListOf : List LogicTree → List TreeShape
  | [] => []
  | c :: cs => treeShapeOf c :: treeShapeListOf cs

end

/-- Shape of the `where` option. -/
inductive WhereShape where
  | simple (effOp : String)
  | tree (ts : TreeShape)

/-- Shape of a `list` call. -/
structure ListShape where
  pfxPresent : Bool
  whereShape : Option WhereShape
  reverse : Bool
  limitPresent : Bool

/-- The shape of a `ListOptions` record: exactly the data the branching in
`list` consults. -/
def listShapeOf (o : ListOptions) : ListShape :=
  { pfxPresent := (match o.pfx with | some p => !(p == "") | none => false)
    whereShape := (match o.whereOpt with
      | none => none
      | some (.simple c) => some (.simple (coerceOp c.operator))
      | some (.callback t) => some (.tree (treeShapeOf t)))
    reverse := o.reverse == some true
    limitPresent := (match o.limit with | some l => !(l == 0) | none => false) }

/-- SQL text of a compilation result (`none` for a thrown error). -/
def exSql : Except String Frag → Option String
  | .error _ => none
  | .ok f => some f.sql

/-- SQL text of a statement result. -/
def exStmtSql : Except String Stmt → Option String
  | .error _ => none
  | .ok st => some st.sql

mutual

/-- Fuel measure of a filter tree. -/
def tsize : LogicTree → Nat
  | .cond _ => 1
  | .logic _ cs => 1 + tsizeL cs

/-- Fuel measure of a child list. -/
def tsizeL : List LogicTree → Nat
  | [] => 0
  | c :: cs => 1 + tsize c + tsizeL cs

end

theorem tsize_pos (t : LogicTree) : 0 < tsize t := by
  cases t <;> simp [tsize]

/-- The SQL text (and error behaviour) of `buildWhereSql` depends only on
the tree's shape. -/
theorem buildWhereSql_shape (n : Nat) :
    (∀ t1 t2, tsize t1 ≤ n → treeShapeOf t1 = treeShapeOf t2 →
        exSql (buildWhereSql t1) = exSql (buildWhereSql t2)) ∧
    (∀ cs1 cs2, tsizeL cs1 ≤ n → treeShapeListOf cs1 = treeShapeListOf cs2 →
        (match buildFragList cs1, buildFragList cs2 with
         | .ok f1, .ok f2 => f1.map Frag.sql = f2.map Frag.sql
         | .error _, .error _ => True
         | _, _ => False)) := by
  induction n using Nat.strong_induction_on with
  | _ n ih =>
    constructor
    · intro t1 t2 hs hsh
      cases t1 with
      | cond c1 =>
        cases t2 with
        | cond c2 =>
          simp only [treeShapeOf, TreeShape.leaf.injEq] at hsh
          simp [buildWhereSql, exSql, hsh]
        | logic op2 cs2 => simp [treeShapeOf] at hsh
      | logic op1 cs1 =>
        cases t2 with
        | cond c2 => simp [treeShapeOf] at hsh
        | logic op2 cs2 =>
          simp only [treeShapeOf, TreeShape.node.injEq] at hsh
          obtain ⟨rfl, hcs⟩ := hsh
          have hn : 0 < n := lt_of_lt_of_le (tsize_pos _) hs
          have hlist := (ih (n - 1) (by omega)).2 cs1 cs2
            (by simp only [tsize] at hs; omega) hcs
          cases op1 with
          | NOT =>
            cases cs1 with
            | nil =>
              cases cs2 with
              | nil => rfl
              | cons c2 cs2 => simp [treeShapeListOf] at hcs
            | cons c1 cs1 =>
              cases cs2 with
              | nil => simp [treeShapeListOf] at hcs
              | cons c2 cs2 =>
                simp only [treeShapeListOf, List.cons.injEq] at hcs
                have hhead := (ih (n - 1) (by omega)).1 c1 c2
                  (by simp only [tsize, tsizeL] at hs; omega) hcs.1
                simp only [buildWhereSql]
                cases h1 : buildWhereSql c1 with
                | error e1 =>
                  cases h2 : buildWhereSql c2 with
                  | error e2 => rfl
                  | ok f2 => rw [h1, h2] at hhead; simp [exSql] at hhead
                | ok f1 =>
                  cases h2 : buildWhereSql c2 with
                  | error e2 => rw [h1, h2] at hhead; simp [exSql] at hhead
                  | ok f2 =>
                    rw [h1, h2] at hhead
                    simp only [exSql, Option.some.injEq] at hhead
                    simp [exSql, hhead]
          | AND =>
            simp only [buildWhereSql]
            cases h1 : buildFragList cs1 with
            | error e1 =>
              cases h2 : buildFragList cs2 with
              | error e2 => rfl
              | ok f2 => rw [h1, h2] at hlist; simp at hlist
            | ok f1 =>
              cases h2 : buildFragList cs2 with
              | error e2 => rw [h1, h2] at hlist; simp at hlist
              | ok f2 =>
                rw [h1, h2] at hlist
                simp only at hlist
                simp [exSql, hlist]
          | OR =>
            simp only [buildWhereSql]
            cases h1 : buildFragList cs1 with
            | error e1 =>
              cases h2 : buildFragList cs2 with
              | error e2 => rfl
              | ok f2 => rw [h1, h2] at hlist; simp at hlist
            | ok f1 =>
              cases h2 : buildFragList cs2 with
              | error e2 => rw [h1, h2] at hlist; simp at hlist
              | ok f2 =>
                rw [h1, h2] at hlist
                simp only at hlist
                simp [exSql, hlist]
    · intro cs1 cs2 hs hsh
      cases cs1 with
      | nil =>
        cases cs2 with
        | nil => simp [buildFragList]
        | cons c2 cs2 => simp [treeShapeListOf] at hsh
      | cons c1 cs1 =>
        cases cs2 with
        | nil => simp [treeShapeListOf] at hsh
        | cons c2 cs2 =>
          simp only [treeShapeListOf, List.cons.injEq] at hsh
          have hn : 0 < n := by
            have := tsize_pos c1
            simp only [tsizeL] at hs
            omega
          have hhead := (ih (n - 1) (by omega)).1 c1 c2
            (by simp only [tsizeL] at hs; omega) hsh.1
          have htail := (ih (n - 1) (by omega)).2 cs1 cs2
            (by simp only [tsizeL] at hs; omega) hsh.2
          simp only [buildFragList]
          cases h1 : buildWhereSql c1 with
          | error e1 =>
            cases h2 : buildWhereSql c2 with
            | error e2 => trivial
            | ok f2 => rw [h1, h2] at hhead; simp [exSql] at hhead
          | ok f1 =>
            cases h2 : buildWhereSql c2 with
            | error e2 => rw [h1, h2] at hhead; simp [exSql] at hhead
            | ok f2 =>
              rw [h1, h2] at hhead
              simp only [exSql, Option.some.injEq] at hhead
              cases h3 : buildFragList cs1 with
              | error e3 =>
                cases h4 : buildFragList cs2 with
                | error e4 => trivial
                | ok f4 => rw [h3, h4] at htail; simp at htail
              | ok f3 =>
                cases h4 : buildFragList cs2 with
                | error e4 => rw [h3, h4] at htail; simp at htail
                | ok f4 =>
                  rw [h3, h4] at htail
                  simp only at htail
                  simp [hhead, htail]

/-! ## Operation-level helper lemmas -/

theorem set_singleton (k : String) (v : KVValue) (ver : String)
    (e : Option Int) (now : Int) :
    CoreKV.set [] k v ver e now = [CoreKV.mkRow k v ver e now] := by
  simp [CoreKV.set]

theorem mkRow_key (k : String) (v : KVValue) (ver : String)
    (e : Option Int) (now : Int) : (CoreKV.mkRow k v ver e now).key = k := rfl

/-- After a `set`, the single-key lookup finds exactly the freshly built
row: the upsert fully replaces every mutable column. -/
theorem findRow_set (t : Table) (k : String) (v : KVValue) (ver : String)
    (e : Option Int) (now : Int) :
    findRow (CoreKV.set t k v ver e now) k = some (CoreKV.mkRow k v ver e now) := by
  unfold CoreKV.set findRow
  by_cases ha : t.any (fun r => r.key == k)
  · rw [if_pos ha]
    induction t with
    | nil => simp at ha
    | cons r rs ih =>
      by_cases hr : (r.key == k) = true
      · simp only [List.map_cons, List.filter_cons, hr, if_pos]
        simp [mkRow_key]
      · have ha' : rs.any (fun r => r.key == k) := by
          simp only [List.any_cons, hr, Bool.false_or] at ha
          exact ha
        rw [List.map_cons, if_neg hr, List.filter_cons, if_neg hr]
        exact ih ha'
  · rw [if_neg ha]
    have hnone : t.filter (fun r => r.key == k) = [] := by
      rw [List.filter_eq_nil_iff]
      intro r hr
      simp only [List.any_eq_true, not_exists, not_and] at ha
      simp [ha r hr]
    rw [List.filter_append, hnone, List.nil_append]
    simp [mkRow_key]

/-- Setting the same key twice leaves no trace of the first write: the
composite equals the second write alone. -/
theorem set_set (t : Table) (k : String) (v1 v2 : KVValue) (ver1 ver2 : String)
    (e1 e2 : Option Int) (n1 n2 : Int) :
    CoreKV.set (CoreKV.set t k v1 ver1 e1 n1) k v2 ver2 e2 n2 =
      CoreKV.set t k v2 ver2 e2 n2 := by
  unfold CoreKV.set
  by_cases ha : t.any (fun r => r.key == k)
  · rw [if_pos ha]
    have ha2 : (t.map (fun r => if r.key == k then CoreKV.mkRow k v1 ver1 e1 n1 else r)).any
        (fun r => r.key == k) = true := by
      simp only [List.any_eq_true] at ha ⊢
      obtain ⟨r, hr, hk⟩ := ha
      refine ⟨if r.key == k then CoreKV.mkRow k v1 ver1 e1 n1 else r, List.mem_map_of_mem _ hr, ?_⟩
      simp [hk, mkRow_key]
    rw [if_pos ha2, if_pos ha, List.map_map]
    apply List.map_congr_left
    intro r _
    by_cases hr : (r.key == k) = true
    · simp [Function.comp, hr, mkRow_key]
    · simp [Function.comp, hr]
  · rw [if_neg ha]
    have ha2 : ((t ++ [CoreKV.mkRow k v1 ver1 e1 n1]).any (fun r => r.key == k)) = true := by
      simp [mkRow_key]
    rw [if_pos ha2, if_neg ha, List.map_append]
    have h1 : t.map (fun r => if r.key == k then CoreKV.mkRow k v2 ver2 e2 n2 else r) = t := by
      have := List.map_congr_left (l := t)
        (f := fun r => if r.key == k then CoreKV.mkRow k v2 ver2 e2 n2 else r) (g := id)
        (fun r hrm => by
          simp only [List.any_eq_true, not_exists, not_and] at ha
          simp [ha r hrm, id])
      rw [this, List.map_id]
    rw [h1]
    simp [mkRow_key]

/-- The per-key result `getMany` produces once its row map is fixed. -/
def getManySlot (m : String → Option Row) (k : String) : Except String (Option Entry) :=
  match m k with
  | none => .ok none
  | some row =>
    match decodeValue row.vrow with
    | .error e => .error e
    | .ok v => .ok (some { key := row.key, value := v, version := row.version })

theorem mapDecode_ok {m : String → Option Row} :
    ∀ {ks : List String} {res : List (Option Entry)},
      CoreKV.mapDecode m ks = .ok res →
      res.length = ks.length ∧
        ∀ i (hi : i < ks.length) (hri : i < res.length),
          getManySlot m (ks.get ⟨i, hi⟩) = .ok (res.get ⟨i, hri⟩) := by
  intro ks
  induction ks with
  | nil =>
    intro res h
    simp only [CoreKV.mapDecode] at h
    cases h
    exact ⟨rfl, fun i hi => by simp at hi⟩
  | cons k ks ih =>
    intro res h
    simp only [CoreKV.mapDecode] at h
    cases hm : m k with
    | none =>
      rw [hm] at h
      dsimp only at h
      cases hrest : CoreKV.mapDecode m ks with
      | error e => rw [hrest] at h; cases h
      | ok rest =>
        rw [hrest] at h
        cases h
        obtain ⟨hlen, hslot⟩ := ih hrest
        refine ⟨by simp [hlen], ?_⟩
        intro i hi hri
        cases i with
        | zero => simp [getManySlot, hm]
        | succ j =>
          simp only [List.get_cons_succ]
          exact hslot j (by simpa using hi) (by simpa using hri)
    | some row =>
      rw [hm] at h
      dsimp only at h
      cases hdec : decodeValue row.vrow with
      | error e => rw [hdec] at h; cases h
      | ok v =>
        rw [hdec] at h
        cases hrest : CoreKV.mapDecode m ks with
        | error e => rw [hrest] at h; cases h
        | ok rest =>
          rw [hrest] at h
          cases h
          obtain ⟨hlen, hslot⟩ := ih hrest
          refine ⟨by simp [hlen], ?_⟩
          intro i hi hri
          cases i with
          | zero => simp [getManySlot, hm, hdec]
          | succ j =>
            simp only [List.get_cons_succ]
            exact hslot j (by simpa using hi) (by simpa using hri)

/-- A key all of whose stored rows are expired is missing from the map
`getMany` builds. -/
theorem buildMap_none {rows : List Row} {now : Int} {k : String}
    (h : ∀ r ∈ rows, r.key = k → expiredTruthy r.expires_at now = true) :
    CoreKV.buildMap rows now k = none := by
  unfold CoreKV.buildMap
  suffices haux : ∀ (m0 : String → Option Row), m0 k = none →
      (rows.foldl
        (fun m row =>
          if expiredTruthy row.expires_at now then m
          else fun k' => if k' == row.key then some row else m k') m0) k = none by
    exact haux _ rfl
  induction rows with
  | nil => intro m0 hm0; exact hm0
  | cons r rs ih =>
    intro m0 hm0
    simp only [List.foldl_cons]
    by_cases he : expiredTruthy r.expires_at now
    · rw [if_pos he]
      exact ih (fun r' hr' => h r' (List.mem_cons_of_mem r hr')) m0 hm0
    · rw [if_neg he]
      refine ih (fun r' hr' => h r' (List.mem_cons_of_mem r hr')) _ ?_
      have hk : ¬((k == r.key) = true) := by
        intro hkk
        have hrk : r.key = k := (eq_of_beq hkk).symm
        exact he (h r (List.mem_cons_self r rs) hrk)
      rw [if_neg hk]
      exact hm0

theorem rowsToEntries_ok {rs : List Row}
    (h : ∀ r ∈ rs, ∃ v, decodeValue r.vrow = .ok v) :
    ∃ l, CoreKV.rowsToEntries rs = .ok l ∧ l.map Entry.key = rs.map Row.key := by
  induction rs with
  | nil => exact ⟨[], rfl, rfl⟩
  | cons r rs ih =>
    obtain ⟨v, hv⟩ := h r (List.mem_cons_self r rs)
    obtain ⟨l, hl, hkeys⟩ := ih (fun r' hr' => h r' (List.mem_cons_of_mem r hr'))
    refine ⟨{ key := r.key, value := v, version := r.version } :: l, ?_, ?_⟩
    · simp only [CoreKV.rowsToEntries, hv, hl]
    · simp [hkeys]

/-- A decode failure among the rows `list` fetched aborts the whole call:
`rowsToEntries` returns the first such error, which is the decode error of
one of the rows. -/
theorem rowsToEntries_error {rs : List Row} {r : Row} {e : String}
    (hr : r ∈ rs) (he : decodeValue r.vrow = .error e) :
    ∃ e', CoreKV.rowsToEntries rs = .error e' ∧
      ∃ r' ∈ rs, decodeValue r'.vrow = .error e' := by
  induction rs with
  | nil => cases hr
  | cons r0 rs ih =>
    cases hd : decodeValue r0.vrow with
    | error e0 =>
      refine ⟨e0, ?_, r0, List.mem_cons_self r0 rs, hd⟩
      simp only [CoreKV.rowsToEntries, hd]
    | ok v0 =>
      have hrm : r ∈ rs := by
        rcases List.mem_cons.mp hr with rfl | hm
        · rw [hd] at he
          cases he
        · exact hm
      obtain ⟨e', he', r', hr', hd'⟩ := ih hrm
      refine ⟨e', ?_, r', List.mem_cons_of_mem r0 hr', hd'⟩
      simp only [CoreKV.rowsToEntries, hd, he']

/-- Membership characterization of `list` (no limit): a key appears in the
result exactly when some stored row passes the expiry and prefix filters. -/
theorem list_mem_keys (t : Table) (o : CoreKV.SListOptions) (now : Int)
    (hdec : ∀ r ∈ t, ∃ v, decodeValue r.vrow = .ok v)
    (hnolimit : o.limit = none) :
    ∃ l, CoreKV.list t o now = .ok l ∧
      ∀ k, (∃ e ∈ l, e.key = k) ↔
        ∃ r ∈ t, r.key = k ∧ CoreKV.listRowPasses o now r = true := by
  unfold CoreKV.list
  rw [hnolimit]
  set rows := t.filter (CoreKV.listRowPasses o now) with hrows
  set sorted := if o.reverse == some true
    then rows.insertionSort CoreKV.keyGe
    else rows.insertionSort CoreKV.keyLe with hsorted
  have hperm : sorted.Perm rows := by
    rw [hsorted]
    by_cases hrev : o.reverse == some true
    · rw [if_pos hrev]
      exact List.perm_insertionSort _ _
    · rw [if_neg hrev]
      exact List.perm_insertionSort _ _
  have hsub : ∀ r ∈ sorted, r ∈ t := by
    intro r hr
    have := hperm.mem_iff.mp hr
    rw [hrows] at this
    exact List.mem_of_mem_filter this
  obtain ⟨l, hl, hkeys⟩ := rowsToEntries_ok (fun r hr => hdec r (hsub r hr))
  refine ⟨l, hl, ?_⟩
  intro k
  have hmem : (∃ e ∈ l, e.key = k) ↔ k ∈ l.map Entry.key := by
    simp [List.mem_map]
  rw [hmem, hkeys]
  have : k ∈ sorted.map Row.key ↔ k ∈ rows.map Row.key := (hperm.map Row.key).mem_iff
  rw [this]
  simp only [List.mem_map, hrows]
  constructor
  · rintro ⟨r, hr, rfl⟩
    exact ⟨r, List.mem_of_mem_filter hr, rfl, List.of_mem_filter hr⟩
  · rintro ⟨r, hr, rfl, hpass⟩
    exact ⟨r, List.mem_filter.mpr ⟨hr, hpass⟩, rfl⟩

/-- Success test of a fallible computation. -/
def exOk : Except String α → Bool
  | .ok _ => true
  | .error _ => false

/-! ## Claims -/

/-- Claim C2: for every supported value — string, finite number, boolean,
JSON object/array/null, byte sequence — decoding the row produced by
encoding it returns the value back: bit-for-bit for byte sequences
(contents equality), structurally for every other kind. -/
theorem c2_codec_roundtrip (v : KVValue) (h : wfKV v = true) :
    decodeValue (vrowOf (encodeValue v)) = .ok (some (canon v)) ∧
      kvContentsEq (canon v) v :=
  ⟨decode_encode h, canon_contentsEq v⟩

theorem c2_witness :
    wfKV (KVValue.bin ⟨[7, 8, 9, 10], 1, 2⟩) = true ∧
    (decodeValue (vrowOf (encodeValue (KVValue.bin ⟨[7, 8, 9, 10], 1, 2⟩))) =
        .ok (some (canon (KVValue.bin ⟨[7, 8, 9, 10], 1, 2⟩))) ∧
      kvContentsEq (canon (KVValue.bin ⟨[7, 8, 9, 10], 1, 2⟩))
        (KVValue.bin ⟨[7, 8, 9, 10], 1, 2⟩)) :=
  ⟨by decide, c2_codec_roundtrip (KVValue.bin ⟨[7, 8, 9, 10], 1, 2⟩) (by decide)⟩

/-- Claim C5: a filter condition compiles with its own operator when it is
one of the five allow-listed ones and with `=` substituted otherwise; leaf
compilation never raises whatever the operator; the operator slot of the
generated fragment is always filled from the allow-list; the same
substitution governs the simple-object `where` path of `list`. -/
theorem c5_operator_allowlist :
    (∀ (fl op : String) (v : CondValue),
      buildWhereSql (.cond ⟨fl, op, v⟩) =
        .ok ⟨"json_extract(value_text, ?) " ++ coerceOp op ++ " ?",
          [.s ("$." ++ fl), argOfCondValue v]⟩) ∧
    (∀ op : String, coerceOp op ∈ safeOps) ∧
    (∀ op : String, op ∈ safeOps → coerceOp op = op) ∧
    (∀ op : String, op ∉ safeOps → coerceOp op = "=") ∧
    (∀ (c : WhereCondition) (now : Int),
      CoreKV.listStmt { whereOpt := some (.simple c) } now =
        .ok (Stmt.mk
          ("SELECT * FROM kv_store WHERE 1=1" ++
            " AND (expires_at IS NULL OR expires_at > ?)" ++
            " AND value_type = 'json' AND json_extract(value_text, ?) " ++
            coerceOp c.operator ++ " ?" ++ " ORDER BY key " ++ "ASC")
          ([.i now] ++ [.s ("$." ++ c.field), argOfCondValue c.value]))) := by
  refine ⟨?_, ?_, ?_, ?_, ?_⟩
  · intro fl op v
    rw [buildWhereSql]
  · intro op
    unfold coerceOp
    by_cases h : safeOps.contains op
    · rw [if_pos h]
      simpa using h
    · rw [if_neg h]
      decide
  · intro op h
    unfold coerceOp
    rw [if_pos (by simpa using h)]
  · intro op h
    unfold coerceOp
    rw [if_neg (by simpa using h)]
  · intro c now
    rfl

theorem c5_witness :
    buildWhereSql (.cond ⟨"age", "DROP TABLE", .i 30⟩) =
      .ok ⟨"json_extract(value_text, ?) " ++ coerceOp "DROP TABLE" ++ " ?",
        [.s ("$." ++ "age"), argOfCondValue (.i 30)]⟩ ∧
    coerceOp "DROP TABLE" = "=" ∧
    coerceOp "LIKE" = "LIKE" :=
  ⟨c5_operator_allowlist.1 "age" "DROP TABLE" (.i 30),
    c5_operator_allowlist.2.2.2.1 "DROP TABLE" (by decide),
    c5_operator_allowlist.2.2.1 "LIKE" (by decide)⟩

/-- Claim C6 counterexample: the claim says encode fails on non-finite
numeric inputs, but `encodeValue` has no finiteness check — it succeeds on
`NaN` and stores the text form `"NaN"` under type `number`. -/
theorem c6_counterexample :
    encodeValue (.num .nan) = { blob := none, text := some "NaN", type := "number" } := rfl

/-- Claim C6 (amended): encode accepts the non-finite numbers and stores
their text forms `NaN` / `Infinity` / `-Infinity` with type `number`; it
never raises, and decode maps the stored texts back to the same
non-finite values. -/
theorem c6_nonfinite_encoding :
    encodeValue (.num .nan) = ⟨none, some "NaN", "number"⟩ ∧
    encodeValue (.num .inf) = ⟨none, some "Infinity", "number"⟩ ∧
    encodeValue (.num .negInf) = ⟨none, some "-Infinity", "number"⟩ ∧
    decodeValue (vrowOf (encodeValue (.num .nan))) = .ok (some (.num .nan)) ∧
    decodeValue (vrowOf (encodeValue (.num .inf))) = .ok (some (.num .inf)) ∧
    decodeValue (vrowOf (encodeValue (.num .negInf))) = .ok (some (.num .negInf)) :=
  ⟨rfl, rfl, rfl, rfl, rfl, rfl⟩

/-- Claim C7 counterexample: the claim says a row whose `value_type` is
not one of the five known tags makes decode raise, but `decodeValue` only
throws when all three fields are absent — an unknown tag falls through to
the string branch and returns the raw text. -/
theorem c7_counterexample :
    decodeValue (VRow.mk (.val "mystery") .absent (.val "hello")) =
      .ok (some (.str "hello")) := rfl

/-- Claim C7 (amended): decode raises exactly when all three of
`value_type`/`value_blob`/`value_text` are absent from the row, or when
the `json` branch fails to parse the text; a row with an unrecognized tag
does not raise — it decodes as its raw text.  When decode does raise, the
error propagates to the caller of `get` unchanged, and a decode failure on
any row a `list` call fetched makes the whole `list` call fail with one of
the rows' decode errors rather than being swallowed or replaced by a
fallback value. -/
theorem c7_decode_error_amended :
    (∀ row : VRow,
      exOk (decodeValue row) = false ↔
        ((row.value_type = .absent ∧ row.value_blob = .absent ∧
            row.value_text = .absent) ∨
          (row.value_type = .val "json" ∧ exOk (jsonParseField row.value_text) = false))) ∧
    (∀ (t : Table) (k : String) (now : Int) (row : Row) (e : String),
      findRow t k = some row →
      expiredTruthy row.expires_at now = false →
      decodeValue row.vrow = .error e →
      CoreKV.get t k now = .error e) ∧
    (∀ (t : Table) (o : CoreKV.SListOptions) (now : Int) (r : Row) (e : String),
      o.limit = none →
      r ∈ t →
      CoreKV.listRowPasses o now r = true →
      decodeValue r.vrow = .error e →
      ∃ e', CoreKV.list t o now = .error e' ∧
        ∃ r' ∈ t, decodeValue r'.vrow = .error e') := by
  refine ⟨?_, ?_, ?_⟩
  · intro row
    unfold decodeValue
    split_ifs with h1 h2 h3 h4 h5
    · exact ⟨fun _ => Or.inl h1, fun _ => rfl⟩
    · refine ⟨(fun hf => nomatch hf), ?_⟩
      rintro (hl | hr)
      · exact absurd hl h1
      · rw [h2] at hr
        exact absurd hr.1 (by decide)
    · refine ⟨(fun hf => nomatch hf), ?_⟩
      rintro (hl | hr)
      · exact absurd hl h1
      · rw [h3] at hr
        exact absurd hr.1 (by decide)
    · refine ⟨(fun hf => nomatch hf), ?_⟩
      rintro (hl | hr)
      · exact absurd hl h1
      · rw [h4] at hr
        exact absurd hr.1 (by decide)
    · cases hp : jsonParseField row.value_text with
      | error e => exact ⟨fun _ => Or.inr ⟨h5, rfl⟩, fun _ => rfl⟩
      | ok j =>
        refine ⟨(fun hf => nomatch hf), ?_⟩
        rintro (hl | hr)
        · exact absurd hl h1
        · exact nomatch hr.2
    · refine ⟨(fun hf => nomatch hf), ?_⟩
      rintro (hl | hr)
      · exact absurd hl h1
      · exact absurd hr.1 h5
  · intro t k now row e hfind hexp hdec
    unfold CoreKV.get
    rw [show (t.filter (fun r => r.key == k)).head? = findRow t k from rfl, hfind]
    dsimp only
    rw [if_neg (by rw [hexp]; exact Bool.false_ne_true), hdec]
  · intro t o now r e hlim hr hpass hd
    have hlist : CoreKV.list t o now =
        CoreKV.rowsToEntries (if o.reverse == some true
          then (t.filter (CoreKV.listRowPasses o now)).insertionSort CoreKV.keyGe
          else (t.filter (CoreKV.listRowPasses o now)).insertionSort CoreKV.keyLe) := by
      unfold CoreKV.list
      rw [hlim]
    have hperm : (if o.reverse == some true
        then (t.filter (CoreKV.listRowPasses o now)).insertionSort CoreKV.keyGe
        else (t.filter (CoreKV.listRowPasses o now)).insertionSort CoreKV.keyLe).Perm
          (t.filter (CoreKV.listRowPasses o now)) := by
      by_cases hrev : o.reverse == some true
      · rw [if_pos hrev]
        exact List.perm_insertionSort _ _
      · rw [if_neg hrev]
        exact List.perm_insertionSort _ _
    have hrs : r ∈ (if o.reverse == some true
        then (t.filter (CoreKV.listRowPasses o now)).insertionSort CoreKV.keyGe
        else (t.filter (CoreKV.listRowPasses o now)).insertionSort CoreKV.keyLe) :=
      hperm.mem_iff.mpr (List.mem_filter.mpr ⟨hr, hpass⟩)
    obtain ⟨e', he', r', hr', hd'⟩ := rowsToEntries_error hrs hd
    rw [hlist]
    exact ⟨e', he', r', List.mem_of_mem_filter (hperm.mem_iff.mp hr'), hd'⟩

theorem c7_witness :
    CoreKV.get [Row.mk "k" ⟨.absent, .absent, .absent⟩ "v" none] "k" 0 =
      .error "Invalid row format for decoding value." ∧
    (∃ e', CoreKV.list [Row.mk "k" ⟨.absent, .absent, .absent⟩ "v" none]
        ⟨none, none, none⟩ 0 = .error e' ∧
      ∃ r' ∈ [Row.mk "k" ⟨.absent, .absent, .absent⟩ "v" none],
        decodeValue r'.vrow = .error e') :=
  ⟨c7_decode_error_amended.2.1 _ "k" 0
      (Row.mk "k" ⟨.absent, .absent, .absent⟩ "v" none) _ rfl rfl rfl,
    c7_decode_error_amended.2.2 [Row.mk "k" ⟨.absent, .absent, .absent⟩ "v" none]
      ⟨none, none, none⟩ 0 (Row.mk "k" ⟨.absent, .absent, .absent⟩ "v" none) _
      rfl (List.mem_singleton.mpr rfl) rfl rfl⟩

/-- Claim C8 counterexample: the claim says a provided `expireIn` always
stores `now + expireIn`, but the source guards with JS truthiness
(`options?.expireIn ? ... : null`), so a provided `expireIn = 0` stores no
expiry at all instead of `now + 0`. -/
theorem c8_counterexample :
    (findRow (CoreKV.set [] "k" (.str "a") "v" (some 0) 5) "k").map Row.expires_at =
      some none ∧ (none : Option Int) ≠ some (5 + 0) := by
  constructor
  · rfl
  · simp

/-- Claim C8 (amended): a `set` with `expireIn` provided and nonzero
stores `expires_at = now + expireIn`; with `expireIn` absent — or provided
as `0`, which is falsy — it stores no expiry. -/
theorem c8_expiry_computation (t : Table) (k : String) (v : KVValue)
    (ver : String) (now : Int) :
    (∀ d : Int, (findRow (CoreKV.set t k v ver (some d) now) k).map Row.expires_at =
        some (if d == 0 then none else some (now + d))) ∧
    (findRow (CoreKV.set t k v ver none now) k).map Row.expires_at = some none := by
  constructor
  · intro d
    rw [findRow_set]
    rfl
  · rw [findRow_set]
    rfl

/-- `get` evaluated through the row the single-key lookup returns. -/
theorem get_of_findRow {t : Table} {k : String} {row : Row} (now : Int)
    (h : findRow t k = some row) :
    CoreKV.get t k now =
      if expiredTruthy row.expires_at now then .ok none
      else
        match decodeValue row.vrow with
        | .error e => .error e
        | .ok v => .ok (some { key := row.key, value := v, version := row.version }) := by
  unfold CoreKV.get
  rw [show (t.filter (fun r => r.key == k)).head? = findRow t k from rfl, h]

/-- Claim C1 counterexample: the claim puts the `get` boundary at
`now ≥ setTime + d`, but at exactly `now = setTime + d` the source's
`expires_at < Date.now()` comparison is false, so `get` still returns the
entry — while `list` (which uses `expires_at > ?`) already excludes it at
the same instant. -/
theorem c1_counterexample :
    CoreKV.get (CoreKV.set [] "k" (.str "x") "v1" (some 5) 0) "k" 5 =
      .ok (some ⟨"k", some (.str "x"), "v1"⟩) ∧
    CoreKV.get (CoreKV.set [] "k" (.str "x") "v1" (some 5) 0) "k" 5 ≠ .ok none ∧
    CoreKV.list (CoreKV.set [] "k" (.str "x") "v1" (some 5) 0) {} 5 = .ok [] := by
  refine ⟨rfl, ?_, rfl⟩
  intro h
  have h2 : (Except.ok (some (Entry.mk "k" (some (.str "x")) "v1")) :
      Except String (Option Entry)) = .ok none := h
  simp at h2

/-- Claim C1 (amended): for a key set with a positive `expireIn = d` at
`setTime ≥ 0`, `get` returns the entry at every `now ≤ setTime + d` and
absent at every `now > setTime + d`, while `list` (at the same single
`now` taken at call entry) includes the key exactly when
`now < setTime + d` — so at the exact boundary instant `now = setTime + d`
`get` still returns the entry while `list` already excludes it. -/
theorem c1_expiry_boundary (k : String) (v : KVValue) (ver : String)
    (d setTime now : Int) (hd : 0 < d) (hst : 0 ≤ setTime) (hv : wfKV v = true) :
    (CoreKV.get (CoreKV.set [] k v ver (some d) setTime) k now =
        .ok (some ⟨k, some (canon v), ver⟩) ↔ now ≤ setTime + d) ∧
    (CoreKV.get (CoreKV.set [] k v ver (some d) setTime) k now = .ok none ↔
        setTime + d < now) ∧
    CoreKV.list (CoreKV.set [] k v ver (some d) setTime) {} now =
      .ok (if now < setTime + d then [⟨k, some (canon v), ver⟩] else []) := by
  have hexp : (CoreKV.mkRow k v ver (some d) setTime).expires_at = some (setTime + d) := by
    show CoreKV.expiresAtOf (some d) setTime = some (setTime + d)
    unfold CoreKV.expiresAtOf
    dsimp only
    rw [if_neg (by simp only [beq_iff_eq]; omega)]
  have hexpired : expiredTruthy (CoreKV.mkRow k v ver (some d) setTime).expires_at now =
      decide (setTime + d < now) := by
    rw [hexp]
    unfold expiredTruthy
    dsimp only
    rw [show ((setTime + d == 0) = false) by simp only [beq_eq_false_iff_ne, ne_eq]; omega]
    simp
  have hget : CoreKV.get (CoreKV.set [] k v ver (some d) setTime) k now =
      if setTime + d < now then .ok none else .ok (some ⟨k, some (canon v), ver⟩) := by
    rw [get_of_findRow now (by rw [findRow_set]), hexpired]
    by_cases hlt : setTime + d < now
    · rw [if_pos (by simpa using hlt), if_pos hlt]
    · rw [if_neg (by simpa using hlt), if_neg hlt]
      rw [show (CoreKV.mkRow k v ver (some d) setTime).vrow = vrowOf (encodeValue v) from rfl,
        decode_encode hv]
      rfl
  have hlist : CoreKV.list (CoreKV.set [] k v ver (some d) setTime) {} now =
      .ok (if now < setTime + d then [⟨k, some (canon v), ver⟩] else []) := by
    rw [set_singleton]
    unfold CoreKV.list
    have hpass : CoreKV.listRowPasses {} now (CoreKV.mkRow k v ver (some d) setTime) =
        decide (setTime + d > now) := by
      unfold CoreKV.listRowPasses notExpiredSql
      rw [hexp]
      dsimp only
      simp
    rw [List.filter_cons, List.filter_nil, hpass]
    by_cases hlt : now < setTime + d
    · rw [if_pos (by simpa using hlt), if_pos hlt]
      show CoreKV.rowsToEntries (List.insertionSort _ [_]) = _
      rw [show List.insertionSort CoreKV.keyLe [CoreKV.mkRow k v ver (some d) setTime] =
        [CoreKV.mkRow k v ver (some d) setTime] from rfl]
      unfold CoreKV.rowsToEntries
      rw [show (CoreKV.mkRow k v ver (some d) setTime).vrow = vrowOf (encodeValue v) from rfl,
        decode_encode hv]
      rfl
    · rw [if_neg (by simpa using hlt), if_neg hlt]
      rfl
  refine ⟨?_, ?_, hlist⟩
  · rw [hget]
    by_cases hlt : setTime + d < now
    · rw [if_pos hlt]
      exact iff_of_false (by simp) (by omega)
    · rw [if_neg hlt]
      exact iff_of_true rfl (by omega)
  · rw [hget]
    by_cases hlt : setTime + d < now
    · rw [if_pos hlt]
      exact iff_of_true rfl hlt
    · rw [if_neg hlt]
      exact iff_of_false (by simp) hlt

theorem c1_witness :
    CoreKV.get (CoreKV.set [] "k" (.str "x") "v" (some 5) 0) "k" 3 =
      .ok (some ⟨"k", some (canon (.str "x")), "v"⟩) :=
  (c1_expiry_boundary "k" (.str "x") "v" 5 0 3 (by decide) (by decide)
    (by decide)).1.mpr (by decide)

/-- Claim C4: a second `set` on the same key fully replaces the row — the
composite state equals the one from the second write alone, the stored row
is built entirely from the second value (value columns, type tag, version,
expiry), and `get` returns the second value with the second version, which
differs from the first write's version. -/
theorem c4_upsert_replace (t : Table) (k : String) (v1 v2 : KVValue)
    (ver1 ver2 : String) (e1 : Option Int) (n1 n2 now : Int)
    (hver : ver1 ≠ ver2) (hv2 : wfKV v2 = true) :
    CoreKV.set (CoreKV.set t k v1 ver1 e1 n1) k v2 ver2 none n2 =
      CoreKV.set t k v2 ver2 none n2 ∧
    findRow (CoreKV.set (CoreKV.set t k v1 ver1 e1 n1) k v2 ver2 none n2) k =
      some (CoreKV.mkRow k v2 ver2 none n2) ∧
    CoreKV.get (CoreKV.set (CoreKV.set t k v1 ver1 e1 n1) k v2 ver2 none n2) k now =
      .ok (some ⟨k, some (canon v2), ver2⟩) ∧
    ver2 ≠ ver1 := by
  refine ⟨set_set t k v1 v2 ver1 ver2 e1 none n1 n2, findRow_set _ k v2 ver2 none n2, ?_,
    fun h => hver h.symm⟩
  rw [get_of_findRow now (findRow_set _ k v2 ver2 none n2)]
  rw [show expiredTruthy (CoreKV.mkRow k v2 ver2 none n2).expires_at now = false from rfl]
  rw [if_neg (by simp)]
  rw [show (CoreKV.mkRow k v2 ver2 none n2).vrow = vrowOf (encodeValue v2) from rfl,
    decode_encode hv2]
  rfl

theorem c4_witness :
    CoreKV.get (CoreKV.set (CoreKV.set [] "k" (.str "a") "v1" (some 9) 0)
        "k" (.str "b") "v2" none 1) "k" 2 =
      .ok (some ⟨"k", some (canon (.str "b")), "v2"⟩) :=
  (c4_upsert_replace [] "k" (.str "a") (.str "b") "v1" "v2" (some 9) 0 1 2
    (by decide) (by decide)).2.2.1

/-- Claim C3: `getMany` returns one slot per input key, in input order
(`res.length = keys.length` and slot `i` is a function of key `i` alone,
so duplicate keys get identical slots); an empty input returns an empty
list and issues no query; a key all of whose fetched rows are expired gets
`null` in its slot without affecting the length or order. -/
theorem c3_getMany_shape :
    (∀ (t : Table) (now : Int),
      CoreKV.getMany t [] now = .ok [] ∧ CoreKV.getManyStmt [] = none) ∧
    (∀ (t : Table) (keys : List String) (now : Int) (res : List (Option Entry)),
      CoreKV.getMany t keys now = .ok res →
      res.length = keys.length ∧
      (∀ i j (hi : i < keys.length) (hj : j < keys.length)
          (hri : i < res.length) (hrj : j < res.length),
        keys.get ⟨i, hi⟩ = keys.get ⟨j, hj⟩ → res.get ⟨i, hri⟩ = res.get ⟨j, hrj⟩) ∧
      (∀ i (hi : i < keys.length) (hri : i < res.length),
        (∀ r ∈ t, r.key = keys.get ⟨i, hi⟩ → expiredTruthy r.expires_at now = true) →
        res.get ⟨i, hri⟩ = none)) := by
  constructor
  · exact fun t now => ⟨rfl, rfl⟩
  · intro t keys now res h
    cases keys with
    | nil =>
      have hres : res = [] := by
        simpa [CoreKV.getMany] using h.symm
      subst hres
      exact ⟨rfl, fun i j hi => by simp at hi, fun i hi => by simp at hi⟩
    | cons k0 ks =>
      unfold CoreKV.getMany at h
      rw [if_neg (by simp)] at h
      obtain ⟨hlen, hslot⟩ := mapDecode_ok h
      refine ⟨hlen, ?_, ?_⟩
      · intro i j hi hj hri hrj hkeys
        have h1 := hslot i hi hri
        have h2 := hslot j hj hrj
        rw [hkeys] at h1
        rw [h1] at h2
        exact Except.ok.inj h2
      · intro i hi hri hexp
        have hmap : CoreKV.buildMap
            ((t : Table).filter (fun r => (k0 :: ks).contains r.key)) now
            ((k0 :: ks).get ⟨i, hi⟩) = none := by
          apply buildMap_none
          intro r hr hkey
          exact hexp r (List.mem_of_mem_filter hr) hkey
        have h1 := hslot i hi hri
        unfold getManySlot at h1
        rw [hmap] at h1
        exact (Except.ok.inj h1).symm

theorem c3_witness :
    CoreKV.getMany
        [Row.mk "a" (vrowOf (encodeValue (.str "va"))) "v1" none,
          Row.mk "b" (vrowOf (encodeValue (.str "vb"))) "v2" (some 1)]
        ["a", "b", "a"] 5 =
      .ok [some (Entry.mk "a" (some (.str "va")) "v1"), none,
        some (Entry.mk "a" (some (.str "va")) "v1")] ∧
    ([some (Entry.mk "a" (some (.str "va")) "v1"), none,
        some (Entry.mk "a" (some (.str "va")) "v1")] :
      List (Option Entry)).length = (["a", "b", "a"] : List String).length ∧
    ([some (Entry.mk "a" (some (.str "va")) "v1"), none,
        some (Entry.mk "a" (some (.str "va")) "v1")] :
      List (Option Entry)).get ⟨1, by decide⟩ = none := by
  have h0 : CoreKV.getMany
      [Row.mk "a" (vrowOf (encodeValue (.str "va"))) "v1" none,
        Row.mk "b" (vrowOf (encodeValue (.str "vb"))) "v2" (some 1)]
      ["a", "b", "a"] 5 =
    .ok [some (Entry.mk "a" (some (.str "va")) "v1"), none,
      some (Entry.mk "a" (some (.str "va")) "v1")] := rfl
  have h := (c3_getMany_shape.2
    [Row.mk "a" (vrowOf (encodeValue (.str "va"))) "v1" none,
      Row.mk "b" (vrowOf (encodeValue (.str "vb"))) "v2" (some 1)]
    ["a", "b", "a"] 5
    [some (Entry.mk "a" (some (.str "va")) "v1"), none,
      some (Entry.mk "a" (some (.str "va")) "v1")] h0)
  refine ⟨h0, h.1, ?_⟩
  apply h.2.2 1 (by decide) (by decide)
  intro r hr hkey
  simp only [List.mem_cons, List.not_mem_nil, or_false] at hr
  rcases hr with rfl | rfl
  · exact absurd hkey (by decide)
  · decide

/-- Claim C9 counterexample: the claim says every character of the prefix
is matched literally, but the source compiles the option to
`key LIKE prefix + "%"` with no escaping, so `_` in the prefix is a
single-character wildcard: `list({prefix: "a_"})` returns the key `"abc"`
even though `"a_"` is not a character prefix of `"abc"`. -/
theorem c9_counterexample :
    CoreKV.list [Row.mk "abc" (vrowOf (encodeValue (.str "x"))) "v" none]
        ⟨some "a_", none, none⟩ 0 =
      .ok [Entry.mk "abc" (some (.str "x")) "v"] ∧
    ("a_".data).isPrefixOf "abc".data = false := by
  constructor
  · have hlm : likeMatch ("a_" ++ "%").data "abc".data = true := by
      simp [likeMatch, likeCharEq]
    unfold CoreKV.list
    have hpass : CoreKV.listRowPasses ⟨some "a_", none, none⟩ 0
        (Row.mk "abc" (vrowOf (encodeValue (.str "x"))) "v" none) = true := by
      unfold CoreKV.listRowPasses notExpiredSql
      dsimp only
      rw [if_neg (by decide), hlm]
      rfl
    rw [List.filter_cons, List.filter_nil, if_pos hpass]
    dsimp only
    rw [if_neg (by decide : ¬(((none : Option Bool) == some true) = true))]
    rw [show List.insertionSort CoreKV.keyLe
        [Row.mk "abc" (vrowOf (encodeValue (.str "x"))) "v" none] =
      [Row.mk "abc" (vrowOf (encodeValue (.str "x"))) "v" none] from rfl]
    unfold CoreKV.rowsToEntries
    dsimp only
    rw [decode_encode (by decide)]
    rfl
  · decide

/-- Claim C9 (amended): a `list` call with a nonempty prefix `p` returns
exactly the non-expired entries whose key matches the SQLite `LIKE`
pattern `p + "%"` — so `%` and `_` inside `p` act as wildcards and ASCII
letters match case-insensitively, rather than the prefix being matched
literally byte for byte; an empty prefix is falsy and applies no filter at
all. -/
theorem c9_prefix_like (t : Table) (p : String) (now : Int)
    (hp : p ≠ "") (hdec : ∀ r ∈ t, ∃ v, decodeValue r.vrow = .ok v) :
    (∃ l, CoreKV.list t ⟨some p, none, none⟩ now = .ok l ∧
      ∀ k, (∃ e ∈ l, e.key = k) ↔
        ∃ r ∈ t, r.key = k ∧ notExpiredSql r.expires_at now = true ∧
          likeMatch (p ++ "%").data k.data = true) ∧
    CoreKV.list t ⟨some "", none, none⟩ now = CoreKV.list t ⟨none, none, none⟩ now := by
  constructor
  · obtain ⟨l, hl, hiff⟩ := list_mem_keys t ⟨some p, none, none⟩ now hdec rfl
    refine ⟨l, hl, ?_⟩
    intro k
    rw [hiff k]
    have hpfalse : (p == "") = false := by
      simp only [beq_eq_false_iff_ne, ne_eq]
      exact hp
    constructor
    · rintro ⟨r, hr, rfl, hpass⟩
      unfold CoreKV.listRowPasses at hpass
      dsimp only at hpass
      rw [hpfalse] at hpass
      simp only [Bool.if_false_left, Bool.and_eq_true] at hpass
      exact ⟨r, hr, rfl, hpass.1, by simpa using hpass.2⟩
    · rintro ⟨r, hr, rfl, hexp, hlm⟩
      refine ⟨r, hr, rfl, ?_⟩
      unfold CoreKV.listRowPasses
      dsimp only
      rw [hpfalse]
      simpa [hexp] using hlm
  · unfold CoreKV.list
    have : CoreKV.listRowPasses ⟨some "", none, none⟩ now =
        CoreKV.listRowPasses ⟨none, none, none⟩ now := by
      funext r
      unfold CoreKV.listRowPasses
      rfl
    rw [this]

theorem c9_witness :
    CoreKV.list [Row.mk "abc" (vrowOf (encodeValue (.str "x"))) "v" none]
        ⟨some "", none, none⟩ 0 =
      CoreKV.list [Row.mk "abc" (vrowOf (encodeValue (.str "x"))) "v" none]
        ⟨none, none, none⟩ 0 :=
  (c9_prefix_like [Row.mk "abc" (vrowOf (encodeValue (.str "x"))) "v" none] "ab" 0
    (by decide)
    (fun r hr => by
      simp only [List.mem_singleton] at hr
      subst hr
      exact ⟨some (.str "x"), decode_encode (by decide)⟩)).2

set_option maxRecDepth 8000 in
set_option maxHeartbeats 1000000 in
/-- The SQL text of `list` factored out of `listStmt`: a function of the
option truthiness bits, the where form, and the compiled filter fragment
only. -/
theorem listStmt_sql (o : ListOptions) (now : Int) :
    exStmtSql (CoreKV.listStmt o now) =
      match (match o.whereOpt with
        | none => some ""
        | some (.simple c) =>
          some (" AND value_type = 'json' AND json_extract(value_text, ?) " ++
            coerceOp c.operator ++ " ?")
        | some (.callback tr) =>
          (match buildWhereSql tr with
           | .error _ => none
           | .ok frag => some (" AND value_type = 'json' AND (" ++ frag.sql ++ ")"))) with
      | none => none
      | some wsql => some
          ("SELECT * FROM kv_store WHERE 1=1" ++
            " AND (expires_at IS NULL OR expires_at > ?)" ++
            (if (match o.pfx with | some p => !(p == "") | none => false)
              then " AND key LIKE ?" else "") ++
            wsql ++ " ORDER BY key " ++
            (if o.reverse == some true then "DESC" else "ASC") ++
            (if (match o.limit with | some l => !(l == 0) | none => false)
              then " LIMIT ?" else "")) := by
  obtain ⟨pfx, limit, cursor, whereOpt, reverse⟩ := o
  unfold CoreKV.listStmt exStmtSql
  dsimp only
  have hstr : ∀ a b c d e : String,
      ((((a ++ b) ++ c) ++ d) ++ e) = (a ++ (b ++ (c ++ (d ++ e)))) := by
    intro a b c d e
    ext1
    simp
  cases whereOpt with
  | none =>
    dsimp only
    cases pfx with
    | none =>
      dsimp only
      cases limit with
      | none =>
        dsimp only
        congr 1 <;> (ext1; simp)
      | some l =>
        dsimp only
        by_cases hl : (l == 0) = true
        · rw [if_pos hl, hl]
          dsimp only
          congr 1 <;> (ext1; simp)
        · rw [if_neg hl, (Bool.not_eq_true _).mp hl]
          dsimp only
          congr 1 <;> (ext1; simp)
    | some p =>
      dsimp only
      by_cases hp : (p == "") = true
      · rw [if_pos hp, hp]
        dsimp only
        cases limit with
        | none =>
          dsimp only
          congr 1 <;> (ext1; simp)
        | some l =>
          dsimp only
          by_cases hl : (l == 0) = true
          · rw [if_pos hl, hl]
            dsimp only
            congr 1 <;> (ext1; simp)
          · rw [if_neg hl, (Bool.not_eq_true _).mp hl]
            dsimp only
            congr 1 <;> (ext1; simp)
      · rw [if_neg hp, (Bool.not_eq_true _).mp hp]
        dsimp only
        cases limit with
        | none =>
          dsimp only
          congr 1 <;> (ext1; simp)
        | some l =>
          dsimp only
          by_cases hl : (l == 0) = true
          · rw [if_pos hl, hl]
            dsimp only
            congr 1 <;> (ext1; simp)
          · rw [if_neg hl, (Bool.not_eq_true _).mp hl]
            dsimp only
            congr 1 <;> (ext1; simp)
  | some wf =>
    cases wf with
    | simple c =>
      dsimp only
      cases pfx with
      | none =>
        dsimp only
        cases limit with
        | none =>
          dsimp only
          congr 1 <;> (ext1; simp)
        | some l =>
          dsimp only
          by_cases hl : (l == 0) = true
          · rw [if_pos hl, hl]
            dsimp only
            congr 1 <;> (ext1; simp)
          · rw [if_neg hl, (Bool.not_eq_true _).mp hl]
            dsimp only
            congr 1 <;> (ext1; simp)
      | some p =>
        dsimp only
        by_cases hp : (p == "") = true
        · rw [if_pos hp, hp]
          dsimp only
          cases limit with
          | none =>
            dsimp only
            congr 1 <;> (ext1; simp)
          | some l =>
            dsimp only
            by_cases hl : (l == 0) = true
            · rw [if_pos hl, hl]
              dsimp only
              congr 1 <;> (ext1; simp)
            · rw [if_neg hl, (Bool.not_eq_true _).mp hl]
              dsimp only
              congr 1 <;> (ext1; simp)
        · rw [if_neg hp, (Bool.not_eq_true _).mp hp]
          dsimp only
          cases limit with
          | none =>
            dsimp only
            congr 1 <;> (ext1; simp)
          | some l =>
            dsimp only
            by_cases hl : (l == 0) = true
            · rw [if_pos hl, hl]
              dsimp only
              congr 1 <;> (ext1; simp)
            · rw [if_neg hl, (Bool.not_eq_true _).mp hl]
              dsimp only
              congr 1 <;> (ext1; simp)
    | callback tr =>
      cases htr : buildWhereSql tr with
      | error e => simp only [htr]
      | ok frag =>
        simp only [htr]
        cases pfx with
        | none =>
          dsimp only
          cases limit with
          | none =>
            dsimp only
            congr 1 <;> (ext1; simp)
          | some l =>
            dsimp only
            by_cases hl : (l == 0) = true
            · rw [if_pos hl, hl]
              dsimp only
              congr 1 <;> (ext1; simp)
            · rw [if_neg hl, (Bool.not_eq_true _).mp hl]
              dsimp only
              congr 1 <;> (ext1; simp)
        | some p =>
          dsimp only
          by_cases hp : (p == "") = true
          · rw [if_pos hp, hp]
            dsimp only
            cases limit with
            | none =>
              dsimp only
              congr 1 <;> (ext1; simp)
            | some l =>
              dsimp only
              by_cases hl : (l == 0) = true
              · rw [if_pos hl, hl]
                dsimp only
                congr 1 <;> (ext1; simp)
              · rw [if_neg hl, (Bool.not_eq_true _).mp hl]
                dsimp only
                congr 1 <;> (ext1; simp)
          · rw [if_neg hp, (Bool.not_eq_true _).mp hp]
            dsimp only
            cases limit with
            | none =>
              dsimp only
              congr 1 <;> (ext1; simp)
            | some l =>
              dsimp only
              by_cases hl : (l == 0) = true
              · rw [if_pos hl, hl]
                dsimp only
                congr 1 <;> (ext1; simp)
              · rw [if_neg hl, (Bool.not_eq_true _).mp hl]
                dsimp only
                congr 1 <;> (ext1; simp)

/-- Claim C10: the SQL text handed to `execute` carries no caller data —
for every operation it is a function of the call's shape alone (key count,
option truthiness, reverse flag, allow-listed effective operators and
filter tree shape), with keys, prefixes, values, field names and
comparison values appearing only in the positional argument list. -/
theorem c10_sql_parameterization :
    (∀ k1 k2 : String, (CoreKV.getStmt k1).sql = (CoreKV.getStmt k2).sql) ∧
    (∀ ks1 ks2 : List String, ks1.length = ks2.length →
      (CoreKV.getManyStmt ks1).map Stmt.sql = (CoreKV.getManyStmt ks2).map Stmt.sql) ∧
    (∀ (k1 : String) (v1 : KVValue) (ver1 : String) (e1 : Option Int) (n1 : Int)
        (k2 : String) (v2 : KVValue) (ver2 : String) (e2 : Option Int) (n2 : Int),
      (CoreKV.setStmt k1 v1 ver1 e1 n1).sql = (CoreKV.setStmt k2 v2 ver2 e2 n2).sql) ∧
    (∀ k1 k2 : String, (CoreKV.delStmt k1).sql = (CoreKV.delStmt k2).sql) ∧
    (∀ n1 n2 : Int, (CoreKV.cleanupStmt n1).sql = (CoreKV.cleanupStmt n2).sql) ∧
    (∀ (o1 o2 : ListOptions) (n1 n2 : Int), listShapeOf o1 = listShapeOf o2 →
      exStmtSql (CoreKV.listStmt o1 n1) = exStmtSql (CoreKV.listStmt o2 n2)) ∧
    (∀ k : String, (CoreKV.getStmt k).args = [.s k]) ∧
    (∀ k : String, (CoreKV.delStmt k).args = [.s k]) := by
  refine ⟨fun _ _ => rfl, ?_, fun _ _ _ _ _ _ _ _ _ _ => rfl, fun _ _ => rfl,
    fun _ _ => rfl, ?_, fun _ => rfl, fun _ => rfl⟩
  · intro ks1 ks2 hlen
    unfold CoreKV.getManyStmt
    by_cases h1 : ks1.isEmpty
    · have h2 : ks2.isEmpty := by
        rw [List.isEmpty_iff_length_eq_zero] at h1 ⊢
        omega
      rw [if_pos h1, if_pos h2]
    · have h2 : ¬ks2.isEmpty := by
        rw [List.isEmpty_iff_length_eq_zero] at h1 ⊢
        omega
      rw [if_neg h1, if_neg h2]
      have hq : ∀ ks : List String, ks.map (fun _ => "?") = List.replicate ks.length "?" := by
        intro ks
        induction ks with
        | nil => rfl
        | cons a ks ih => simp [ih, List.replicate_succ]
      simp only [Option.map_some']
      rw [hq ks1, hq ks2, hlen]
  · intro o1 o2 n1 n2 hsh
    have hpfx : (match o1.pfx with | some p => !(p == "") | none => false) =
        (match o2.pfx with | some p => !(p == "") | none => false) :=
      congrArg ListShape.pfxPresent hsh
    have hrev : (o1.reverse == some true) = (o2.reverse == some true) :=
      congrArg ListShape.reverse hsh
    have hlim : (match o1.limit with | some l => !(l == 0) | none => false) =
        (match o2.limit with | some l => !(l == 0) | none => false) :=
      congrArg ListShape.limitPresent hsh
    have hws : (match o1.whereOpt with
        | none => none
        | some (.simple c) => some (WhereShape.simple (coerceOp c.operator))
        | some (.callback t) => some (WhereShape.tree (treeShapeOf t))) =
      (match o2.whereOpt with
        | none => none
        | some (.simple c) => some (WhereShape.simple (coerceOp c.operator))
        | some (.callback t) => some (WhereShape.tree (treeShapeOf t))) :=
      congrArg ListShape.whereShape hsh
    rw [listStmt_sql o1 n1, listStmt_sql o2 n2]
    simp only [hpfx, hrev, hlim]
    rcases hw1 : o1.whereOpt with _ | c1 | t1 <;>
      rcases hw2 : o2.whereOpt with _ | c2 | t2 <;>
      rw [hw1, hw2] at hws <;>
      simp only [hw1, hw2]
    all_goals try simp at hws
    all_goals try rfl
    · rw [hws]
    · have hts : treeShapeOf t1 = treeShapeOf t2 := hws
      have hexs := (buildWhereSql_shape (tsize t1)).1 t1 t2 le_rfl hts
      cases hb1 : buildWhereSql t1 with
      | error e1 =>
        cases hb2 : buildWhereSql t2 with
        | error e2 => rfl
        | ok f2 =>
          rw [hb1, hb2] at hexs
          exact absurd hexs (by simp [exSql])
      | ok f1 =>
        cases hb2 : buildWhereSql t2 with
        | error e2 =>
          rw [hb1, hb2] at hexs
          exact absurd hexs (by simp [exSql])
        | ok f2 =>
          rw [hb1, hb2] at hexs
          simp only [exSql, Option.some.injEq] at hexs
          dsimp only
          rw [hexs]

theorem c10_witness :
    exStmtSql (CoreKV.listStmt
        ⟨some "user:", some 10, none, some (.simple ⟨"age", ">", .i 30⟩), some false⟩ 111) =
      exStmtSql (CoreKV.listStmt
        ⟨some "blog:", some 99, none, some (.simple ⟨"name", ">", .s "q"⟩), some false⟩ 222) ∧
    (CoreKV.getStmt "alice").sql = (CoreKV.getStmt "bob").sql ∧
    (CoreKV.getStmt "alice").args = [.s "alice"] :=
  ⟨c10_sql_parameterization.2.2.2.2.2.1
      ⟨some "user:", some 10, none, some (.simple ⟨"age", ">", .i 30⟩), some false⟩
      ⟨some "blog:", some 99, none, some (.simple ⟨"name", ">", .s "q"⟩), some false⟩
      111 222 rfl,
    c10_sql_parameterization.1 "alice" "bob",
    c10_sql_parameterization.2.2.2.2.2.2.1 "alice"⟩
